import Mathlib

/-!
Verification of the MythBox backend communication layer
(resources/src/mythbox/mythtv/conn.py): the long-integer codec,
message framing, protocol negotiation, commercial-break decoding,
the file-transfer loop, the thread-affine connection injection
decorator, and the send/receive error-propagation policy.

Python semantics are embedded shallowly: Python arbitrary-precision
integers become Lean Int (with the two's-complement bitwise operators
Int.land, Int.lor and the arithmetic shifts of Mathlib, which match
Python's semantics for negative operands), byte strings become lists
of characters, sockets become explicit state records, and raising
exceptions becomes returning Except values.
-/

namespace MythBox

/-! ### Python integer parsing

Models Python int(s) and long(s) on a decimal token: surrounding
whitespace is stripped, one optional sign is allowed, then one or
more decimal digits; anything else raises ValueError (here: none). -/

/-- The whitespace characters stripped by Python str.strip(). -/
def pyIsSpace (c : Char) : Bool :=
  c == ' ' || c == '\t' || c == '\n' || c == '\x0d' || c == '\x0b' || c == '\x0c'

/-- Value of a decimal digit character, none for a non-digit. -/
def digitVal (c : Char) : Option Nat :=
  if '0' ≤ c ∧ c ≤ '9' then some (c.toNat - '0'.toNat) else none

/-- Accumulator pass over a digit token. -/
def parseDigitsGo (acc : Nat) : List Char → Option Nat
  | [] => some acc
  | c :: cs =>
    match digitVal c with
    | none => none
    | some d => parseDigitsGo (acc * 10 + d) cs

/-- Parse a non-empty all-digit token into a Nat. -/
def parseDigits : List Char → Option Nat
  | [] => none
  | l => parseDigitsGo 0 l

/-- Python str.strip(): remove leading and trailing whitespace. -/
def pyStrip (l : List Char) : List Char :=
  ((l.dropWhile pyIsSpace).reverse.dropWhile pyIsSpace).reverse

/-- Python int(s) and long(s) on a decimal string, as used by
decodeLongLong and the reply parsers in conn.py: strip whitespace,
allow one optional sign, then require one or more digits. -/
def pyInt (l : List Char) : Option Int :=
  match pyStrip l with
  | [] => none
  | c :: ds =>
    if c = '-' then (parseDigits ds).map fun n => -(n : Int)
    else if c = '+' then (parseDigits ds).map fun n => (n : Int)
    else (parseDigits (c :: ds)).map fun n => (n : Int)

/-- Decimal rendering of a Nat, mirroring Python '%d'. -/
def natToDec (n : Nat) : List Char :=
  if h : n < 10 then [Nat.digitChar n]
  else natToDec (n / 10) ++ [Nat.digitChar (n % 10)]
termination_by n
decreasing_by exact Nat.div_lt_self (by omega) (by omega)

/-! ### The long-integer codec (conn.py lines 51-69)

def decodeLongLong(low32Bits, high32Bits):
    if isinstance(low32Bits, str): low32Bits = long(low32Bits)
    if isinstance(high32Bits, str): high32Bits = long(high32Bits)
    return low32Bits and 0xffffffffL or (high32Bits ltlt 32)   [bitwise]

def encodeLongLong(long64Bits):
    return long64Bits and 0xffffffffL, long64Bits gtgt 32      [bitwise]
-/

/-- decodeLongLong on integer arguments: low and 0xffffffff or (high shl 32),
with Python's two's-complement bitwise semantics on arbitrary ints. -/
def decodeLongLong (low32Bits high32Bits : ℤ) : ℤ :=
  Int.lor (Int.land low32Bits 4294967295) (high32Bits <<< (32 : ℤ))

/-- encodeLongLong: (low and 0xffffffff, arithmetic shift right 32). -/
def encodeLongLong (long64Bits : ℤ) : ℤ × ℤ :=
  (Int.land long64Bits 4294967295, long64Bits >>> (32 : ℤ))

/-- An argument to decodeLongLong: Python accepts an int or a decimal
string token (the isinstance branches of conn.py lines 58-61). -/
inductive LLArg where
  | int (i : ℤ)
  | str (s : List Char)
deriving DecidableEq

/-- The int-or-parsed-string value of a decodeLongLong argument;
none models the ValueError raised by long() on a malformed token. -/
def llArgVal : LLArg → Option Int
  | .int i => some i
  | .str s => pyInt s

/-- decodeLongLong accepting int-or-string arguments as the source does. -/
def decodeLongLongArg (low high : LLArg) : Option Int :=
  match llArgVal low, llArgVal high with
  | some lo, some hi => some (decodeLongLong lo hi)
  | _, _ => none

/-! ### Arithmetic characterization of the codec's bitwise operations -/

/-- Bitwise or of numbers with disjoint bits is addition. -/
theorem or_eq_add_of_and_eq_zero : ∀ a b : Nat, a &&& b = 0 → a ||| b = a + b := by
  intro a
  induction a using Nat.strong_induction_on with
  | _ a ih =>
    intro b h
    rcases Nat.eq_zero_or_pos a with ha | ha
    · subst ha; simp
    · have hd : a / 2 &&& b / 2 = 0 := by
        rw [← Nat.and_div_two, h]
      have ih2 := ih (a / 2) (Nat.div_lt_self ha (by omega)) (b / 2) hd
      have hm : ¬ (a % 2 = 1 ∧ b % 2 = 1) := by
        rintro ⟨p, q⟩
        have h1 : (a &&& b) % 2 = 1 := Nat.and_mod_two_eq_one.mpr ⟨p, q⟩
        rw [h] at h1
        omega
      have hor2 : (a ||| b) % 2 = 1 ↔ a % 2 = 1 ∨ b % 2 = 1 := Nat.or_mod_two_eq_one
      have hordiv : (a ||| b) / 2 = a / 2 ||| b / 2 := Nat.or_div_two
      have h1 := Nat.div_add_mod (a ||| b) 2
      have h2 := Nat.div_add_mod a 2
      have h3 := Nat.div_add_mod b 2
      omega

/-- ldiff against the low-32 all-ones mask is mask minus the low 32 bits. -/
theorem ldiff_mask (m : Nat) : Nat.ldiff (2 ^ 32 - 1) m = 2 ^ 32 - 1 - m % 2 ^ 32 := by
  have hd : Nat.ldiff (2 ^ 32 - 1) m &&& (m % 2 ^ 32) = 0 := by
    apply Nat.eq_of_testBit_eq
    intro i
    simp only [Nat.testBit_and, Nat.testBit_ldiff, Nat.testBit_mod_two_pow,
      Nat.testBit_two_pow_sub_one, Nat.zero_testBit]
    cases h : Nat.testBit m i <;> simp [h]
  have hor : Nat.ldiff (2 ^ 32 - 1) m ||| (m % 2 ^ 32) = 2 ^ 32 - 1 := by
    apply Nat.eq_of_testBit_eq
    intro i
    simp only [Nat.testBit_or, Nat.testBit_ldiff, Nat.testBit_mod_two_pow,
      Nat.testBit_two_pow_sub_one]
    cases h : Nat.testBit m i <;> simp [h]
  have hadd := or_eq_add_of_and_eq_zero _ _ hd
  have hlt : m % 2 ^ 32 < 2 ^ 32 := Nat.mod_lt _ (by norm_num)
  omega

/-- A number below 2^32 ored with a left-shifted-by-32 number is their sum. -/
theorem or_low_shl (na nh : Nat) (hna : na < 2 ^ 32) :
    na ||| nh <<< 32 = nh * 2 ^ 32 + na := by
  have hd : na &&& nh <<< 32 = 0 := by
    apply Nat.eq_of_testBit_eq
    intro i
    simp only [Nat.testBit_and, Nat.testBit_shiftLeft, Nat.zero_testBit, ge_iff_le]
    rcases Nat.lt_or_ge i 32 with hi | hi
    · simp [show ¬ (32 ≤ i) from by omega]
    · have hbit : Nat.testBit na i = false :=
        Nat.testBit_lt_two_pow (lt_of_lt_of_le hna (Nat.pow_le_pow_right (by omega) hi))
      simp [hbit]
  have hadd := or_eq_add_of_and_eq_zero _ _ hd
  rw [hadd, Nat.shiftLeft_eq]
  omega

/-- Python v and 0xffffffff on an arbitrary int is v mod 2^32. -/
theorem int_land_mask (v : ℤ) : Int.land v 4294967295 = v % 4294967296 := by
  cases v with
  | ofNat n =>
    have h1 : Int.land (Int.ofNat n) 4294967295 = Int.ofNat (n &&& 4294967295) := rfl
    rw [h1, show (4294967295 : ℕ) = 2 ^ 32 - 1 from by norm_num,
      Nat.and_pow_two_sub_one_eq_mod, show (2 : ℕ) ^ 32 = 4294967296 from by norm_num]
    have h2 : Int.ofNat (n % 4294967296) = ((n % 4294967296 : ℕ) : ℤ) := rfl
    have h3 : Int.ofNat n = (n : ℤ) := rfl
    rw [h2, h3]
    omega
  | negSucc m =>
    have h1 : Int.land (Int.negSucc m) 4294967295 = Int.ofNat (Nat.ldiff 4294967295 m) := rfl
    rw [h1, show (4294967295 : ℕ) = 2 ^ 32 - 1 from by norm_num, ldiff_mask]
    have h2 : Int.negSucc m = -(m : ℤ) - 1 := by
      rw [Int.negSucc_eq]; ring
    have h3 : Int.ofNat (2 ^ 32 - 1 - m % 2 ^ 32) = ((2 ^ 32 - 1 - m % 2 ^ 32 : ℕ) : ℤ) := rfl
    rw [h2, h3]
    have hlt : m % 2 ^ 32 < 2 ^ 32 := Nat.mod_lt _ (by norm_num)
    omega

/-- Python or of a nonnegative int below 2^32 with a shifted-left-32 int. -/
theorem int_lor_low_shl (a h : ℤ) (ha0 : 0 ≤ a) (ha : a < 4294967296) :
    Int.lor a (h <<< (32 : ℤ)) = h * 4294967296 + a := by
  obtain ⟨na, rfl⟩ : ∃ na : ℕ, a = Int.ofNat na := by
    cases a with
    | ofNat n => exact ⟨n, rfl⟩
    | negSucc n => exact absurd ha0 (by simp [Int.negSucc_eq]; omega)
  have hna : na < 2 ^ 32 := by
    have : Int.ofNat na = (na : ℤ) := rfl
    omega
  cases h with
  | ofNat nh =>
    have h1 : Int.ofNat nh <<< (32 : ℤ) = Int.ofNat (Nat.shiftLeft' false nh 32) := rfl
    have h2 : Int.lor (Int.ofNat na) (Int.ofNat (Nat.shiftLeft' false nh 32)) =
        Int.ofNat (na ||| Nat.shiftLeft' false nh 32) := rfl
    rw [h1, h2, Nat.shiftLeft'_false, or_low_shl na nh hna]
    have h3 : Int.ofNat (nh * 2 ^ 32 + na) = ((nh * 2 ^ 32 + na : ℕ) : ℤ) := rfl
    have h4 : Int.ofNat nh = (nh : ℤ) := rfl
    have h5 : Int.ofNat na = (na : ℤ) := rfl
    rw [h3, h4, h5]
    push_cast
    ring
  | negSucc mh =>
    have h1 : Int.negSucc mh <<< (32 : ℤ) = Int.negSucc (Nat.shiftLeft' true mh 32) := rfl
    have h2 : Int.lor (Int.ofNat na) (Int.negSucc (Nat.shiftLeft' true mh 32)) =
        Int.negSucc (Nat.ldiff (Nat.shiftLeft' true mh 32) na) := rfl
    have hs : Nat.shiftLeft' true mh 32 + 1 = (mh + 1) * 2 ^ 32 :=
      Nat.shiftLeft'_tt_eq_mul_pow mh 32
    have hb : 2 ^ 32 - 1 - na < 2 ^ 32 := by omega
    have hmask : 2 ^ 32 - 1 - na = Nat.ldiff (2 ^ 32 - 1) na := by
      rw [ldiff_mask, Nat.mod_eq_of_lt hna]
    have hld : Nat.ldiff (Nat.shiftLeft' true mh 32) na = 2 ^ 32 * mh + (2 ^ 32 - 1 - na) := by
      apply Nat.eq_of_testBit_eq
      intro j
      have hsval : Nat.shiftLeft' true mh 32 = 2 ^ 32 * mh + (2 ^ 32 - 1) := by omega
      rw [Nat.testBit_ldiff, hsval,
        Nat.testBit_mul_pow_two_add mh (by norm_num : (2:ℕ) ^ 32 - 1 < 2 ^ 32) j,
        Nat.testBit_mul_pow_two_add mh hb j]
      rcases Nat.lt_or_ge j 32 with hj | hj
      · rw [if_pos hj, if_pos hj, hmask, Nat.testBit_ldiff]
      · have hbit : Nat.testBit na j = false :=
          Nat.testBit_lt_two_pow (lt_of_lt_of_le hna (Nat.pow_le_pow_right (by omega) hj))
        simp [if_neg (by omega : ¬ j < 32), hbit]
    rw [h1, h2, hld]
    have h3 : ∀ k : ℕ, Int.negSucc k = -(k : ℤ) - 1 := by
      intro k; rw [Int.negSucc_eq]; ring
    rw [h3, h3]
    have h5 : Int.ofNat na = (na : ℤ) := rfl
    rw [h5]
    push_cast [show na ≤ 2 ^ 32 - 1 from by omega]
    ring_nf
    omega

/-- Python arithmetic right shift by 32 is floor division: the shifted
value times 2^32 plus the low 32 bits recovers the original int. -/
theorem int_shr32 (v : ℤ) : (v >>> (32 : ℤ)) * 4294967296 + v % 4294967296 = v := by
  cases v with
  | ofNat n =>
    have h1 : Int.ofNat n >>> (32 : ℤ) = Int.ofNat (n >>> 32) := rfl
    rw [h1, Nat.shiftRight_eq_div_pow]
    have h2 : Int.ofNat (n / 2 ^ 32) = ((n / 2 ^ 32 : ℕ) : ℤ) := rfl
    have h3 : Int.ofNat n = (n : ℤ) := rfl
    rw [h2, h3]
    omega
  | negSucc m =>
    have h1 : Int.negSucc m >>> (32 : ℤ) = Int.negSucc (m >>> 32) := rfl
    rw [h1, Nat.shiftRight_eq_div_pow]
    have h2 : ∀ k : ℕ, Int.negSucc k = -(k : ℤ) - 1 := by
      intro k; rw [Int.negSucc_eq]; ring
    rw [h2, h2]
    have h3 : ((m / 2 ^ 32 : ℕ) : ℤ) = (m : ℤ) / 2 ^ 32 := by push_cast; rfl
    omega

/-! ### Decimal rendering parses back to the same number -/

/-- parseDigitsGo distributes over append through the accumulator. -/
theorem parseDigitsGo_append (l1 l2 : List Char) :
    ∀ acc, parseDigitsGo acc (l1 ++ l2) =
      (parseDigitsGo acc l1).bind fun m => parseDigitsGo m l2 := by
  induction l1 with
  | nil => intro acc; simp [parseDigitsGo]
  | cons c cs ih =>
    intro acc
    simp only [List.cons_append, parseDigitsGo]
    cases hd : digitVal c with
    | none => simp
    | some d => simp [ih]

/-- digitVal inverts Nat.digitChar on digits. -/
theorem digitVal_digitChar (d : Nat) (hd : d < 10) :
    digitVal (Nat.digitChar d) = some d := by
  interval_cases d <;> decide

/-- The decimal rendering of a number is never empty. -/
theorem natToDec_ne_nil (n : Nat) : natToDec n ≠ [] := by
  rw [natToDec]
  split <;> simp

/-- Every character of a decimal rendering is a decimal digit. -/
theorem natToDec_digits (n : Nat) : ∀ c ∈ natToDec n, ∃ d, d < 10 ∧ c = Nat.digitChar d := by
  induction n using Nat.strong_induction_on with
  | _ n ih =>
    intro c hc
    rw [natToDec] at hc
    split at hc
    next h =>
      simp at hc
      exact ⟨n, h, hc⟩
    next h =>
      rcases List.mem_append.mp hc with hc1 | hc1
      · exact ih (n / 10) (Nat.div_lt_self (by omega) (by omega)) c hc1
      · simp at hc1
        exact ⟨n % 10, Nat.mod_lt _ (by omega), hc1⟩

/-- Decimal digit characters are not Python whitespace. -/
theorem digitChar_not_space (d : Nat) (hd : d < 10) :
    pyIsSpace (Nat.digitChar d) = false := by
  interval_cases d <;> decide

/-- Decimal digit characters are not sign characters. -/
theorem digitChar_not_sign (d : Nat) (hd : d < 10) :
    Nat.digitChar d ≠ '-' ∧ Nat.digitChar d ≠ '+' := by
  interval_cases d <;> decide

/-- Parsing the decimal rendering with an accumulator. -/
theorem parseDigitsGo_natToDec (n : Nat) :
    ∀ acc, parseDigitsGo acc (natToDec n) =
      some (acc * 10 ^ (natToDec n).length + n) := by
  induction n using Nat.strong_induction_on with
  | _ n ih =>
    intro acc
    rw [natToDec]
    split
    next h =>
      simp [parseDigitsGo, digitVal_digitChar n h]
    next h =>
      rw [parseDigitsGo_append, ih (n / 10) (Nat.div_lt_self (by omega) (by omega)) acc]
      have hdig : digitVal (Nat.digitChar (n % 10)) = some (n % 10) :=
        digitVal_digitChar _ (Nat.mod_lt _ (by omega))
      have hsucc : (10 : ℕ) ^ ((natToDec (n / 10)).length + (0 + 1)) =
          10 ^ (natToDec (n / 10)).length * 10 := by
        rw [pow_succ]
      simp only [Option.some_bind, parseDigitsGo, hdig, List.length_append,
        List.length_cons, List.length_nil]
      congr 1
      rw [hsucc, ← mul_assoc]
      generalize acc * 10 ^ (natToDec (n / 10)).length = X
      omega

/-- Round trip: parsing the decimal rendering of n yields n. -/
theorem parseDigits_natToDec (n : Nat) : parseDigits (natToDec n) = some n := by
  have h := parseDigitsGo_natToDec n 0
  simp only [Nat.zero_mul, Nat.zero_add] at h
  cases hl : natToDec n with
  | nil => exact absurd hl (natToDec_ne_nil n)
  | cons c cs =>
    rw [hl] at h
    simpa [parseDigits] using h

/-- Dropping a satisfied run then the rest. -/
theorem dropWhile_append_of_all {α : Type} {p : α → Bool} {l r : List α}
    (h : ∀ c ∈ l, p c = true) : (l ++ r).dropWhile p = r.dropWhile p := by
  induction l with
  | nil => simp
  | cons c cs ih =>
    simp only [List.cons_append, List.dropWhile_cons, h c (by simp)]
    exact ih fun c hc => h c (by simp [hc])

/-- A list headed by a non-matching element survives dropWhile. -/
theorem dropWhile_cons_of_neg {α : Type} {p : α → Bool} {c : α} {cs : List α}
    (h : p c = false) : (c :: cs).dropWhile p = c :: cs := by
  simp [List.dropWhile_cons, h]

/-- Stripping a space-padded decimal rendering leaves the rendering. -/
theorem pyStrip_natToDec_pad (n k : Nat) :
    pyStrip (natToDec n ++ List.replicate k ' ') = natToDec n := by
  unfold pyStrip
  have hfront : (natToDec n ++ List.replicate k ' ').dropWhile pyIsSpace =
      natToDec n ++ List.replicate k ' ' := by
    cases hl : natToDec n with
    | nil => exact absurd hl (natToDec_ne_nil n)
    | cons c cs =>
      obtain ⟨d, hd, rfl⟩ := natToDec_digits n c (by rw [hl]; simp)
      exact dropWhile_cons_of_neg (digitChar_not_space d hd)
  rw [hfront, List.reverse_append, List.reverse_replicate]
  rw [dropWhile_append_of_all (by
    intro c hc
    rw [List.eq_of_mem_replicate hc]
    rfl)]
  cases hr : (natToDec n).reverse with
  | nil =>
    exact absurd (by simpa using congrArg List.reverse hr) (natToDec_ne_nil n)
  | cons c cs =>
    have hc : c ∈ natToDec n := by
      have : c ∈ (natToDec n).reverse := by rw [hr]; simp
      simpa using this
    obtain ⟨d, hd, rfl⟩ := natToDec_digits n c hc
    rw [dropWhile_cons_of_neg (digitChar_not_space d hd), ← hr, List.reverse_reverse]

/-- Python int() round trip on a space-padded decimal rendering. -/
theorem pyInt_natToDec_pad (n k : Nat) :
    pyInt (natToDec n ++ List.replicate k ' ') = some (n : ℤ) := by
  unfold pyInt
  rw [pyStrip_natToDec_pad]
  cases hl : natToDec n with
  | nil => exact absurd hl (natToDec_ne_nil n)
  | cons c cs =>
    obtain ⟨d, hd, rfl⟩ := natToDec_digits n c (by rw [hl]; simp)
    obtain ⟨h1, h2⟩ := digitChar_not_sign d hd
    have hp := parseDigits_natToDec n
    rw [hl] at hp
    simp [h1, h2, hp]

/-- Python int() round trip on a bare decimal rendering. -/
theorem pyInt_natToDec (n : Nat) : pyInt (natToDec n) = some (n : ℤ) := by
  have h := pyInt_natToDec_pad n 0
  simpa using h

/-- The codec round trip holds for every integer, of either sign. -/
theorem decode_encode_roundtrip (v : ℤ) :
    decodeLongLong (encodeLongLong v).1 (encodeLongLong v).2 = v := by
  unfold decodeLongLong encodeLongLong
  simp only
  rw [int_land_mask, int_land_mask]
  have hm0 : 0 ≤ v % 4294967296 := Int.emod_nonneg v (by norm_num)
  have hmlt : v % 4294967296 < 4294967296 := Int.emod_lt_of_pos v (by norm_num)
  rw [Int.emod_emod_of_dvd v (by norm_num : (4294967296 : ℤ) ∣ 4294967296)]
  rw [int_lor_low_shl _ _ hm0 hmlt]
  exact int_shr32 v

/-- C1: for every unsigned 64-bit integer v, including the boundary values
0, 2^32 - 1, 2^32 and 2^64 - 1, decodeLongLong applied to the pair returned
by encodeLongLong v equals v exactly, and this also holds when the low and
high words are supplied to decodeLongLong as decimal-string tokens (any
tokens that long() parses to those two words). -/
theorem C1_long_codec_roundtrip (v : ℤ) (hv0 : 0 ≤ v)
    (hv : v < 18446744073709551616) (lowTok highTok : List Char)
    (hlo : pyInt lowTok = some (encodeLongLong v).1)
    (hhi : pyInt highTok = some (encodeLongLong v).2) :
    decodeLongLong (encodeLongLong v).1 (encodeLongLong v).2 = v ∧
    decodeLongLongArg (.int (encodeLongLong v).1) (.int (encodeLongLong v).2) = some v ∧
    decodeLongLongArg (.str lowTok) (.str highTok) = some v := by
  have h := decode_encode_roundtrip v
  refine ⟨h, ?_, ?_⟩ <;> simp [decodeLongLongArg, llArgVal, hlo, hhi, h]

/-- Witness for C1 at the boundary value 2^64 - 1, with the two words
also supplied as decimal-string tokens. -/
theorem C1_long_codec_roundtrip_witness :
    decodeLongLong (encodeLongLong 18446744073709551615).1
        (encodeLongLong 18446744073709551615).2 = 18446744073709551615 ∧
    decodeLongLongArg (.int (encodeLongLong 18446744073709551615).1)
        (.int (encodeLongLong 18446744073709551615).2) = some 18446744073709551615 ∧
    decodeLongLongArg (.str ("4294967295".data)) (.str ("4294967295".data)) =
        some 18446744073709551615 :=
  C1_long_codec_roundtrip 18446744073709551615 (by norm_num) (by norm_num)
    ("4294967295".data) ("4294967295".data) (by decide) (by decide)

/-- C10: for every negative integer v, encodeLongLong v yields a
non-negative low word equal to v mod 2^32 (the value of Python
v and 0xffffffff) and a negative high word (the arithmetic right shift
v shr 32, characterized by high * 2^32 + low = v), and decodeLongLong
applied to that pair returns exactly v. -/
theorem C10_long_codec_negative (v : ℤ) (hv : v < 0) :
    0 ≤ (encodeLongLong v).1 ∧
    (encodeLongLong v).1 = v % 4294967296 ∧
    (encodeLongLong v).2 < 0 ∧
    (encodeLongLong v).2 * 4294967296 + (encodeLongLong v).1 = v ∧
    decodeLongLong (encodeLongLong v).1 (encodeLongLong v).2 = v := by
  have hlow : (encodeLongLong v).1 = v % 4294967296 := int_land_mask v
  have hx : (encodeLongLong v).2 = v >>> (32 : ℤ) := rfl
  have h2 := int_shr32 v
  have hm0 : 0 ≤ v % 4294967296 := Int.emod_nonneg v (by norm_num)
  have hmlt : v % 4294967296 < 4294967296 := Int.emod_lt_of_pos v (by norm_num)
  refine ⟨by omega, hlow, ?_, ?_, decode_encode_roundtrip v⟩
  · rw [hx]; omega
  · rw [hx, hlow]; exact h2

/-- Witness for C10 at v = -123456789012345. -/
theorem C10_long_codec_negative_witness :
    0 ≤ (encodeLongLong (-123456789012345)).1 ∧
    (encodeLongLong (-123456789012345)).1 = (-123456789012345) % 4294967296 ∧
    (encodeLongLong (-123456789012345)).2 < 0 ∧
    (encodeLongLong (-123456789012345)).2 * 4294967296 +
        (encodeLongLong (-123456789012345)).1 = -123456789012345 ∧
    decodeLongLong (encodeLongLong (-123456789012345)).1
        (encodeLongLong (-123456789012345)).2 = -123456789012345 :=
  C10_long_codec_negative (-123456789012345) (by norm_num)

/-! ### Sockets and message framing (conn.py lines 1100-1160)

A socket endpoint is modelled by the bytes the peer will deliver (buf)
together with a per-recv availability schedule: on each recv call the
head entry is consumed; a some k entry delivers at most k bytes, a none
entry models a socket exception raised by recv, and an exhausted
schedule delivers as much as was requested.  An empty buf models the
peer having closed the connection: recv then returns the empty string. -/

structure Sock where
  buf : List Char
  avail : List (Option Nat)
deriving DecidableEq

/-- socket.recv(n): deliver at most n bytes, fewer if less is available,
the empty string if the peer has closed, or raise (error) per schedule. -/
def recv (s : Sock) (n : Nat) : Except Unit (List Char × Sock) :=
  match s.avail with
  | Option.none :: _ => .error ()
  | Option.some k :: rest => .ok (s.buf.take (min n k), ⟨s.buf.drop (min n k), rest⟩)
  | [] => .ok (s.buf.take n, ⟨s.buf.drop n, []⟩)

/-- recv consuming an ok result makes lexicographic progress on
(schedule length, buffer length) whenever it delivered data. -/
theorem recv_progress {s : Sock} {n : Nat} {data : List Char} {s' : Sock}
    (h : recv s n = .ok (data, s')) (hd : data ≠ []) :
    s'.avail.length < s.avail.length ∨
      (s'.avail.length = s.avail.length ∧ s'.buf.length < s.buf.length) := by
  unfold recv at h
  match hs : s.avail with
  | Option.none :: rest => rw [hs] at h; exact absurd h (by simp)
  | Option.some k :: rest =>
    rw [hs] at h
    simp only [Except.ok.injEq, Prod.mk.injEq] at h
    obtain ⟨hdata, hs'⟩ := h
    subst hs'
    left
    simp
  | [] =>
    rw [hs] at h
    simp only [Except.ok.injEq, Prod.mk.injEq] at h
    obtain ⟨hdata, hs'⟩ := h
    subst hs'
    right
    refine ⟨by simp, ?_⟩
    simp only
    have hbne : s.buf ≠ [] := by
      intro hb
      rw [hb] at hdata
      simp at hdata
      exact hd hdata
    have hn : 0 < n := by
      by_contra hn0
      have hz : n = 0 := by omega
      rw [hz] at hdata
      simp at hdata
      exact hd hdata
    have := List.length_drop n s.buf
    have hlb : 0 < s.buf.length := List.length_pos.mpr hbne
    omega

/-- The accumulation loop of Connection.recv_all (conn.py 1130-1151):
request the missing bytes, re-raise a recv exception, stop on an empty
read (eof), else accumulate and repeat. -/
def recvAllGo (s : Sock) (acc : List Char) (n : Nat) : Except Unit (List Char × Sock) :=
  if h : acc.length < n then
    match hr : recv s (n - acc.length) with
    | .error _ => .error ()
    | .ok (data, s') =>
      if hd : data = [] then .ok (acc, s')
      else recvAllGo s' (acc ++ data) n
  else .ok (acc, s)
termination_by (s.avail.length, s.buf.length)
decreasing_by
  rcases recv_progress hr hd with hlt | ⟨heq, hlt⟩
  · exact Prod.Lex.left _ _ hlt
  · rw [heq]; exact Prod.Lex.right _ hlt

/-- Connection.recv_all(socket, bytes). -/
def recvAll (s : Sock) (n : Nat) : Except Unit (List Char × Sock) :=
  recvAllGo s [] n

/-- Python '%-8d': decimal digits left-justified in a field of eight
characters, padded on the right with spaces (wider if 9+ digits). -/
def fmtLJ8 (n : Nat) : List Char :=
  natToDec n ++ List.replicate (8 - (natToDec n).length) ' '

/-- Python separator.join(tokens). -/
def pyJoin (sep : List Char) : List (List Char) → List Char
  | [] => []
  | [t] => t
  | t :: ts => t ++ sep ++ pyJoin sep ts

/-- Leftmost occurrence of sep in s: the part before it and the part
after it, or none when sep does not occur. -/
def firstOcc (sep : List Char) : List Char → Option (List Char × List Char)
  | [] => if sep.isPrefixOf ([] : List Char) then some ([], []) else none
  | c :: rest =>
    if sep.isPrefixOf (c :: rest) then some ([], (c :: rest).drop sep.length)
    else
      match firstOcc sep rest with
      | some (b, a) => some (c :: b, a)
      | none => none

/-- A located occurrence decomposes the string around the separator. -/
theorem firstOcc_decomp {sep : List Char} :
    ∀ {s b a : List Char}, firstOcc sep s = some (b, a) → s = b ++ sep ++ a := by
  intro s
  induction s with
  | nil =>
    intro b a h
    unfold firstOcc at h
    by_cases hp : sep.isPrefixOf ([] : List Char)
    · rw [if_pos hp] at h
      simp only [Option.some.injEq, Prod.mk.injEq] at h
      obtain ⟨rfl, rfl⟩ := h
      have : sep = [] := by
        have := List.isPrefixOf_iff_prefix.mp hp
        simpa using this
      simp [this]
    · rw [if_neg hp] at h
      exact absurd h (by simp)
  | cons c rest ih =>
    intro b a h
    unfold firstOcc at h
    by_cases hp : sep.isPrefixOf (c :: rest)
    · rw [if_pos hp] at h
      simp only [Option.some.injEq, Prod.mk.injEq] at h
      obtain ⟨rfl, rfl⟩ := h
      have hpre : sep <+: c :: rest := List.isPrefixOf_iff_prefix.mp hp
      obtain ⟨t, ht⟩ := hpre
      rw [← ht, List.drop_left' rfl]
      simp
    · rw [if_neg hp] at h
      match hf : firstOcc sep rest with
      | some (b', a') =>
        rw [hf] at h
        simp only [Option.some.injEq, Prod.mk.injEq] at h
        obtain ⟨hb, rfl⟩ := h
        rw [← hb]
        simp [ih hf]
      | none => rw [hf] at h; exact absurd h (by simp)

/-- Python payload.split(sep) for a non-empty separator: split on each
non-overlapping leftmost occurrence; the empty string yields one empty
token.  (Python raises ValueError on an empty separator; that case is
returned as the whole string and never reached by the framing code.) -/
def pySplit (sep s : List Char) : List (List Char) :=
  if hsep : sep.length = 0 then [s]
  else
    match hf : firstOcc sep s with
    | none => [s]
    | some (b, a) => b :: pySplit sep a
termination_by s.length
decreasing_by
  have hdec := firstOcc_decomp hf
  have : s.length = b.length + sep.length + a.length := by
    rw [hdec]; simp [List.length_append]; omega
  omega

/-- Python retMsg.upper(). -/
def pyUpper (l : List Char) : List Char := l.map Char.toUpper

/-- Dynamically-typed return value of Connection._readMsg: the literal
string OK on the short-acknowledgment path, a list of tokens otherwise. -/
inductive PyVal where
  | str (s : List Char)
  | toks (ts : List (List Char))
deriving DecidableEq

/-- Failure modes of a message read: a socket exception re-raised, a
header that int() cannot parse (ValueError), or the unbounded busy loop
entered when the peer closes mid-payload (modelled by exhausted fuel,
conn.py 1113-1123 has no exit for that case). -/
inductive ReadErr where
  | sockErr
  | badHeader
  | stuck
deriving DecidableEq

/-- The payload accumulation loop of _readMsg: while i < n, append
recv_all(s, n - i); the source loop never exits if recv_all stops
delivering, which the fuel models. -/
def readMsgLoop (s : Sock) (n : Nat) (reply : List Char) (fuel : Nat) :
    Except ReadErr (List Char × Sock) :=
  if reply.length < n then
    match fuel with
    | 0 => .error .stuck
    | fuel + 1 =>
      match recvAll s (n - reply.length) with
      | .error _ => .error .sockErr
      | .ok (data, s') => readMsgLoop s' n (reply ++ data) fuel
  else .ok (reply, s)

/-- Connection._readMsg (conn.py 1104-1128): read the 8-byte header via
recv_all; if it upper-cases to the literal OK return the string OK with
no further read; otherwise int() it as the payload length, accumulate
that many bytes, and split the payload on the separator. -/
def readMsg (sep : List Char) (s : Sock) : Except ReadErr (PyVal × Sock) :=
  match recvAll s 8 with
  | .error _ => .error .sockErr
  | .ok (retMsg, s1) =>
    if pyUpper retMsg = ['O', 'K'] then .ok (.str ['O', 'K'], s1)
    else
      match pyInt retMsg with
      | Option.none => .error .badHeader
      | Option.some nInt =>
        match readMsgLoop s1 nInt.toNat [] (nInt.toNat + 1) with
        | .error e => .error e
        | .ok (reply, s2) => .ok (.toks (pySplit sep reply), s2)

/-- Connection._buildMsg (conn.py 1100-1102): percent-minus-8-d of the
payload length followed by the separator-joined tokens. -/
def buildMsg (sep : List Char) (msg : List (List Char)) : List Char :=
  fmtLJ8 (pyJoin sep msg).length ++ pyJoin sep msg

/-- Connection._sendMsg (conn.py 1153-1160): build the framed message and
send it; the bare except clause only logs, so a socket error raised by
send is swallowed and the method returns normally.  sendOutcome models
what socket.send does with the framed message. -/
def sendMsg (sendOutcome : List Char → Except Unit Unit) (sep : List Char)
    (req : List (List Char)) : Except Unit Unit :=
  match sendOutcome (buildMsg sep req) with
  | .ok _ => .ok ()
  | .error _ => .ok ()

/-- Modelled from the spec: the configured separator sequence used to
join and split message tokens (protocol.separator lives in the module
mythbox.mythtv.protocol, which is not among the sources; the spec says
only that tokens are joined with a single configured separator string).
The framing theorems below quantify over the separator; this concrete
value only instantiates witnesses and counterexamples. -/
def separator : List Char := "[]:[]".data

/-! ### Round trip of separator join and split -/

/-- Taking at most the first part of an append. -/
theorem take_append_le (l r : List Char) :
    ∀ n, n ≤ l.length → (l ++ r).take n = l.take n := by
  induction l with
  | nil => intro n hn; simp at hn; simp [hn]
  | cons c cs ih =>
    intro n hn
    cases n with
    | zero => simp
    | succ m =>
      simp only [List.cons_append, List.take_succ_cons]
      rw [ih m (by simpa using hn)]

/-- A prefix of a list is a prefix of any extension of it. -/
theorem isPrefixOf_extend {sep y : List Char} (r : List Char)
    (h : sep.isPrefixOf y = true) : sep.isPrefixOf (y ++ r) = true := by
  rw [List.isPrefixOf_iff_prefix] at h ⊢
  exact h.trans (List.prefix_append y r)

/-- Being a prefix of an append is decided within the first part when
the candidate is no longer than it. -/
theorem isPrefixOf_append_of_le {sep y : List Char} (r : List Char)
    (hle : sep.length ≤ y.length) :
    sep.isPrefixOf (y ++ r) = sep.isPrefixOf y := by
  by_cases h : sep.isPrefixOf y = true
  · rw [h, isPrefixOf_extend r h]
  · have h' : sep.isPrefixOf y = false := by
      cases hb : sep.isPrefixOf y
      · rfl
      · exact absurd hb h
    rw [h']
    cases hb : sep.isPrefixOf (y ++ r)
    · rfl
    · exfalso
      apply h
      rw [List.isPrefixOf_iff_prefix] at hb ⊢
      have hbt := List.prefix_iff_eq_take.mp hb
      rw [take_append_le _ _ _ hle] at hbt
      exact List.prefix_iff_eq_take.mpr hbt

/-- A token is clean for a separator when no occurrence of the separator
begins inside the token, even one that runs past the token into a
directly following separator: for every i below the token's length, the
separator is not a prefix of (drop i of the token) followed by the
separator itself.  This implies the separator does not occur in the
token and that no token suffix starts a straddling occurrence. -/
def cleanTokB (sep t : List Char) : Bool :=
  (List.range t.length).all fun i => !(sep.isPrefixOf (t.drop i ++ sep))

/-- Tails of clean tokens are clean. -/
theorem cleanTokB_cons {sep : List Char} {c : Char} {t : List Char}
    (h : cleanTokB sep (c :: t) = true) : cleanTokB sep t = true := by
  simp only [cleanTokB, List.all_eq_true, List.mem_range] at h ⊢
  intro i hi
  have := h (i + 1) (by simpa using Nat.succ_lt_succ hi)
  simpa using this

/-- A clean non-empty token does not begin an occurrence of the
separator, even against a following separator. -/
theorem cleanTokB_head {sep : List Char} {c : Char} {t : List Char}
    (h : cleanTokB sep (c :: t) = true) :
    sep.isPrefixOf ((c :: t) ++ sep) = false := by
  simp only [cleanTokB, List.all_eq_true, List.mem_range] at h
  have h0 := h 0 (by simp)
  simpa using h0

/-- Scanning a clean token followed by the separator finds the first
occurrence exactly at the token boundary. -/
theorem firstOcc_at_boundary {sep : List Char} (hsep : sep ≠ []) :
    ∀ (t r : List Char), cleanTokB sep t = true →
      firstOcc sep (t ++ (sep ++ r)) = some (t, r) := by
  intro t
  induction t with
  | nil =>
    intro r _
    match sep, hsep with
    | c :: cs, _ =>
      simp only [List.nil_append, List.cons_append]
      rw [firstOcc]
      rw [if_pos (by
        have : (c :: cs).isPrefixOf ((c :: cs) ++ r) = true :=
          isPrefixOf_extend r (by
            rw [List.isPrefixOf_iff_prefix])
        simpa using this)]
      have hdrop : (c :: (cs ++ r)).drop (c :: cs).length = r := by
        have : (c :: (cs ++ r)) = (c :: cs) ++ r := by simp
        rw [this, List.drop_left' rfl]
      rw [hdrop]
  | cons c t' ih =>
    intro r hc
    have hhead : sep.isPrefixOf ((c :: t') ++ sep) = false := cleanTokB_head hc
    have hfull : sep.isPrefixOf (c :: (t' ++ (sep ++ r))) = false := by
      have hshape : (c :: (t' ++ (sep ++ r))) = ((c :: t') ++ sep) ++ r := by simp
      rw [hshape, isPrefixOf_append_of_le r (by simp; omega)]
      exact hhead
    simp only [List.cons_append]
    rw [firstOcc, if_neg (by rw [hfull]; simp), ih r (cleanTokB_cons hc)]

/-- A clean token alone contains no occurrence of the separator. -/
theorem firstOcc_clean_none {sep : List Char} (hsep : sep ≠ []) :
    ∀ t, cleanTokB sep t = true → firstOcc sep t = none := by
  intro t
  induction t with
  | nil =>
    intro _
    match sep, hsep with
    | c :: cs, _ => rfl
  | cons c t' ih =>
    intro hc
    have hhead : sep.isPrefixOf ((c :: t') ++ sep) = false := cleanTokB_head hc
    have hc0 : sep.isPrefixOf (c :: t') = false := by
      cases hb : sep.isPrefixOf (c :: t')
      · rfl
      · rw [isPrefixOf_extend sep hb] at hhead
        exact absurd hhead (by simp)
    rw [firstOcc, if_neg (by rw [hc0]; simp), ih (cleanTokB_cons hc)]

/-- Splitting the separator-join of a non-empty list of clean tokens
recovers exactly the tokens. -/
theorem pySplit_pyJoin {sep : List Char} (hsep : sep ≠ []) :
    ∀ T : List (List Char), T ≠ [] → (∀ t ∈ T, cleanTokB sep t = true) →
      pySplit sep (pyJoin sep T) = T := by
  have hlen : ¬ sep.length = 0 := by
    intro h
    exact hsep (List.length_eq_zero.mp h)
  intro T
  induction T with
  | nil => intro h; exact absurd rfl h
  | cons t ts ih =>
    intro _ hall
    cases ts with
    | nil =>
      have hj : pyJoin sep [t] = t := rfl
      rw [hj, pySplit, dif_neg hlen]
      split
      · rfl
      next b a heq =>
        rw [firstOcc_clean_none hsep t (hall t (by simp))] at heq
        exact absurd heq (by simp)
    | cons t2 ts2 =>
      have hj : pyJoin sep (t :: t2 :: ts2) = t ++ (sep ++ pyJoin sep (t2 :: ts2)) := by
        simp [pyJoin]
      rw [hj, pySplit, dif_neg hlen]
      have hocc := firstOcc_at_boundary hsep t (pyJoin sep (t2 :: ts2)) (hall t (by simp))
      split
      next heq =>
        rw [hocc] at heq
        exact absurd heq (by simp)
      next b a heq =>
        rw [hocc] at heq
        simp only [Option.some.injEq, Prod.mk.injEq] at heq
        obtain ⟨rfl, rfl⟩ := heq
        rw [ih (by simp) (fun u hu => hall u (by simp [hu]))]

/-! ### The 8-character length field -/

/-- A number below 10^k renders in at most k digits. -/
theorem natToDec_length_le : ∀ k n : Nat, 1 ≤ k → n < 10 ^ k →
    (natToDec n).length ≤ k := by
  intro k
  induction k with
  | zero => intro n h; omega
  | succ k ih =>
    intro n _ hn
    rw [natToDec]
    split
    next h => simp
    next h =>
      have hk : 1 ≤ k := by
        by_contra hk0
        have hz : k = 0 := by omega
        rw [hz] at hn
        simp at hn
        omega
      have hdiv : n / 10 < 10 ^ k := by
        have hp : 10 ^ (k + 1) = 10 ^ k * 10 := by rw [pow_succ]
        rw [hp] at hn
        omega
      have := ih (n / 10) hk hdiv
      simp only [List.length_append, List.length_cons, List.length_nil]
      omega

/-- The length field of a payload shorter than 10^8 bytes is exactly
eight characters wide. -/
theorem fmtLJ8_length (n : Nat) (hn : n < 100000000) : (fmtLJ8 n).length = 8 := by
  unfold fmtLJ8
  have h := natToDec_length_le 8 n (by omega) (by norm_num; omega)
  simp only [List.length_append, List.length_replicate]
  omega

/-- int() recovers the payload length from the padded length field. -/
theorem pyInt_fmtLJ8 (n : Nat) : pyInt (fmtLJ8 n) = some (n : ℤ) :=
  pyInt_natToDec_pad n (8 - (natToDec n).length)

/-! ### Evaluating recv_all and _readMsg on delivered streams -/

/-- recv_all returns exactly n bytes when the peer has at least n
buffered and no schedule restricts delivery. -/
theorem recvAll_full (buf : List Char) (n : Nat) (hn : n ≤ buf.length) :
    recvAll ⟨buf, []⟩ n = .ok (buf.take n, ⟨buf.drop n, []⟩) := by
  unfold recvAll
  rcases Nat.eq_zero_or_pos n with rfl | hpos
  · unfold recvAllGo
    simp
  · unfold recvAllGo
    rw [dif_pos (by simpa using hpos)]
    split
    next heq =>
      rw [show recv ⟨buf, []⟩ (n - ([] : List Char).length) =
        .ok (buf.take n, ⟨buf.drop n, []⟩) from by simp [recv]] at heq
      exact absurd heq (by simp)
    next data s' heq =>
      rw [show recv ⟨buf, []⟩ (n - ([] : List Char).length) =
        .ok (buf.take n, ⟨buf.drop n, []⟩) from by simp [recv]] at heq
      simp only [Except.ok.injEq, Prod.mk.injEq] at heq
      obtain ⟨rfl, rfl⟩ := heq
      have hne : buf.take n ≠ [] := by
        intro habs
        have h0 := congrArg List.length habs
        simp only [List.length_take, List.length_nil, Nat.min_eq_left hn] at h0
        omega
      rw [dif_neg hne]
      unfold recvAllGo
      rw [dif_neg (by
        simp only [List.nil_append, List.length_take, Nat.min_eq_left hn]
        omega)]
      simp

/-- recv_all stops short, at the eof empty read, when the peer closes
after delivering fewer bytes than requested. -/
theorem recvAll_eof (buf : List Char) (n : Nat) (hlt : buf.length < n) :
    recvAll ⟨buf, []⟩ n = .ok (buf, ⟨[], []⟩) := by
  unfold recvAll
  unfold recvAllGo
  rw [dif_pos (by simpa using Nat.lt_of_le_of_lt (Nat.zero_le _) hlt)]
  split
  next heq =>
    rw [show recv ⟨buf, []⟩ (n - ([] : List Char).length) =
      .ok (buf.take n, ⟨buf.drop n, []⟩) from by simp [recv]] at heq
    exact absurd heq (by simp)
  next data s' heq =>
    rw [show recv ⟨buf, []⟩ (n - ([] : List Char).length) =
      .ok (buf.take n, ⟨buf.drop n, []⟩) from by simp [recv]] at heq
    simp only [Except.ok.injEq, Prod.mk.injEq] at heq
    obtain ⟨rfl, rfl⟩ := heq
    rw [List.take_of_length_le (by omega), List.drop_of_length_le (by omega)]
    by_cases hb : buf = []
    · rw [dif_pos hb, hb]
    · rw [dif_neg hb]
      unfold recvAllGo
      rw [dif_pos (by simpa using hlt)]
      split
      next heq2 =>
        rw [show recv ⟨[], []⟩ (n - (([] : List Char) ++ buf).length) =
          .ok ([], ⟨[], []⟩) from by simp [recv]] at heq2
        exact absurd heq2 (by simp)
      next data2 s2 heq2 =>
        rw [show recv ⟨[], []⟩ (n - (([] : List Char) ++ buf).length) =
          .ok ([], ⟨[], []⟩) from by simp [recv]] at heq2
        simp only [Except.ok.injEq, Prod.mk.injEq] at heq2
        obtain ⟨rfl, rfl⟩ := heq2
        rw [dif_pos rfl]
        simp

/-- recv_all re-raises a recv exception. -/
theorem recvAll_err (buf : List Char) (av : List (Option Nat)) (n : Nat)
    (hn : 0 < n) :
    recvAll ⟨buf, Option.none :: av⟩ n = .error () := by
  unfold recvAll
  unfold recvAllGo
  rw [dif_pos (by simpa using hn)]
  split
  next heq => rfl
  next data s' heq =>
    rw [show recv ⟨buf, Option.none :: av⟩ (n - ([] : List Char).length) =
      .error () from rfl] at heq
    exact absurd heq (by simp)

/-- recv_all delivers a full 8-byte header when one is buffered under a
single unrestricted schedule entry, consuming that entry. -/
theorem recvAll_hdr_sched (hdr : List Char) (av : List (Option Nat))
    (h8 : hdr.length = 8) :
    recvAll ⟨hdr, Option.some 8 :: av⟩ 8 = .ok (hdr, ⟨[], av⟩) := by
  unfold recvAll
  unfold recvAllGo
  rw [dif_pos (by simp)]
  have hrecv : recv ⟨hdr, Option.some 8 :: av⟩ (8 - ([] : List Char).length) =
      .ok (hdr, ⟨[], av⟩) := by
    simp only [recv, List.length_nil, Nat.sub_zero, Nat.min_self]
    rw [List.take_of_length_le (by omega), List.drop_of_length_le (by omega)]
  split
  next heq => rw [hrecv] at heq; exact absurd heq (by simp)
  next data s' heq =>
    rw [hrecv] at heq
    simp only [Except.ok.injEq, Prod.mk.injEq] at heq
    obtain ⟨rfl, rfl⟩ := heq
    rw [dif_neg (by intro habs; rw [habs] at h8; simp at h8)]
    unfold recvAllGo
    rw [dif_neg (by simp [h8])]
    simp

/-- The payload loop reads an exactly-buffered payload in one pass. -/
theorem readMsgLoop_exact (payload : List Char) (fuel : Nat)
    (hf : payload = [] ∨ 1 ≤ fuel) :
    readMsgLoop ⟨payload, []⟩ payload.length [] fuel = .ok (payload, ⟨[], []⟩) := by
  rcases hf with rfl | hf
  · unfold readMsgLoop
    simp
  · unfold readMsgLoop
    by_cases hp : payload = []
    · subst hp; simp
    · rw [if_pos (by simpa using List.length_pos.mpr hp)]
      match fuel, hf with
      | fuel + 1, _ =>
        rw [show recvAll ⟨payload, []⟩ (payload.length - ([] : List Char).length) =
          .ok (payload, ⟨[], []⟩) from by
            simpa using recvAll_full payload payload.length (le_refl _)]
        unfold readMsgLoop
        simp

/-- _readMsg on the short OK acknowledgment header: the bare string OK
is returned and the socket is left exactly as the header read left it. -/
theorem readMsg_header_ok {sep : List Char} {s : Sock} {hdr : List Char} {s1 : Sock}
    (hread : recvAll s 8 = .ok (hdr, s1)) (hok : pyUpper hdr = ['O', 'K']) :
    readMsg sep s = .ok (.str ['O', 'K'], s1) := by
  unfold readMsg
  rw [hread]
  dsimp only
  rw [if_pos hok]

/-- _readMsg on a fully delivered framed message parses the length
field and splits the payload on the separator. -/
theorem readMsg_buildMsg (sep : List Char) (T : List (List Char))
    (hlen : (pyJoin sep T).length < 100000000) :
    readMsg sep ⟨buildMsg sep T, []⟩ =
      .ok (.toks (pySplit sep (pyJoin sep T)), ⟨[], []⟩) := by
  have h8 : (fmtLJ8 (pyJoin sep T).length).length = 8 :=
    fmtLJ8_length _ hlen
  have hra : recvAll ⟨buildMsg sep T, []⟩ 8 =
      .ok (fmtLJ8 (pyJoin sep T).length, ⟨pyJoin sep T, []⟩) := by
    unfold buildMsg
    rw [recvAll_full _ 8 (by simp [h8]), List.take_left' h8, List.drop_left' h8]
  unfold readMsg
  rw [hra]
  dsimp only
  have hup : ¬ (pyUpper (fmtLJ8 (pyJoin sep T).length) = ['O', 'K']) := by
    intro habs
    have := congrArg List.length habs
    simp [pyUpper, h8] at this
  rw [if_neg hup, pyInt_fmtLJ8]
  dsimp only
  rw [show ((((pyJoin sep T).length : ℤ)).toNat) = (pyJoin sep T).length from
    Int.toNat_natCast _]
  rw [readMsgLoop_exact _ _ (Or.inr (by omega))]

/-- C2 (amended): for every non-empty separator and every non-empty list
of tokens each clean for the separator (the separator neither occurs in a
token nor begins an occurrence straddling the boundary into a following
separator) whose joined payload is shorter than 10^8 bytes, parsing the
framed message yields the tokens again, and the 8-character length field
of the framed message parses as the exact byte length of the payload. -/
theorem C2_framing_roundtrip (sep : List Char) (T : List (List Char))
    (hsep : sep ≠ []) (hT : T ≠ [])
    (hclean : ∀ t ∈ T, cleanTokB sep t = true)
    (hlen : (pyJoin sep T).length < 100000000) :
    readMsg sep ⟨buildMsg sep T, []⟩ = .ok (.toks T, ⟨[], []⟩) ∧
    pyInt ((buildMsg sep T).take 8) = some ((pyJoin sep T).length : ℤ) := by
  constructor
  · rw [readMsg_buildMsg sep T hlen, pySplit_pyJoin hsep T hT hclean]
  · unfold buildMsg
    rw [List.take_left' (fmtLJ8_length _ hlen)]
    exact pyInt_fmtLJ8 _

/-- Witness for C2 with the wire separator and two tokens. -/
theorem C2_framing_roundtrip_witness :
    readMsg separator ⟨buildMsg separator ["OK".data, "4".data], []⟩ =
      .ok (.toks ["OK".data, "4".data], ⟨[], []⟩) ∧
    pyInt ((buildMsg separator ["OK".data, "4".data]).take 8) =
      some ((pyJoin separator ["OK".data, "4".data]).length : ℤ) :=
  C2_framing_roundtrip separator ["OK".data, "4".data] (by decide) (by decide)
    (by decide) (by decide)

/-- Counterexample to C2 as stated: the empty token list (which trivially
has no token containing the separator) does not round trip, because the
empty payload splits into one empty token, not into no tokens. -/
theorem C2_framing_roundtrip_counterexample :
    readMsg separator ⟨buildMsg separator [], []⟩ = .ok (.toks [[]], ⟨[], []⟩) ∧
    PyVal.toks [[]] ≠ PyVal.toks ([] : List (List Char)) := by
  constructor
  · rw [readMsg_buildMsg separator [] (by rw [show pyJoin separator [] = [] from rfl]; simp)]
    have hps : pySplit separator (pyJoin separator []) = [[]] := by
      rw [show pyJoin separator [] = [] from rfl, pySplit, dif_neg (by decide)]
      split
      · rfl
      next b a heq =>
        rw [show firstOcc separator [] = Option.none from rfl] at heq
        exact absurd heq (by simp)
    rw [hps]
  · simp

/-- C3 (amended): whenever the 8-byte header read returns bytes that
upper-case to the literal OK (which, since recv_all can return fewer
than 8 bytes only when the peer closes, requires the reply to be the
two bytes OK followed by closure), _readMsg returns the bare Python
string OK, not the token list containing OK, and performs no further
read: the socket is left exactly as the header read left it. -/
theorem C3_ok_short_circuit (sep : List Char) (s : Sock) (hdr : List Char)
    (s1 : Sock) (hread : recvAll s 8 = .ok (hdr, s1))
    (hok : pyUpper hdr = ['O', 'K']) :
    readMsg sep s = .ok (.str ['O', 'K'], s1) ∧
    (∀ ts : List (List Char), (PyVal.str ['O', 'K'] : PyVal) ≠ .toks ts) :=
  ⟨readMsg_header_ok hread hok, fun ts h => by cases h⟩

/-- Witness for C3: the peer sends the two bytes ok and closes. -/
theorem C3_ok_short_circuit_witness :
    readMsg separator ⟨"ok".data, []⟩ = .ok (.str ['O', 'K'], ⟨[], []⟩) ∧
    (∀ ts : List (List Char), (PyVal.str ['O', 'K'] : PyVal) ≠ .toks ts) :=
  C3_ok_short_circuit separator ⟨"ok".data, []⟩ "ok".data ⟨[], []⟩
    (recvAll_eof "ok".data 8 (by decide)) (by decide)

/-- Counterexample to C3 as stated: on the short OK reply _readMsg
returns the bare string OK, which is not the token list containing OK
(Connection._isOk, for one, distinguishes them: indexing a Python string
yields the character O, not the token OK). -/
theorem C3_ok_short_circuit_counterexample :
    readMsg separator ⟨"ok".data, []⟩ = .ok (.str ['O', 'K'], ⟨[], []⟩) ∧
    PyVal.str ['O', 'K'] ≠ PyVal.toks [['O', 'K']] :=
  ⟨readMsg_header_ok (recvAll_eof "ok".data 8 (by decide)) (by decide),
    fun h => by cases h⟩

/-- C9 (amended): a socket error during a message receive propagates to
the caller at once, whether it strikes the header read or the payload
read, with no retry; but an error raised while sending a framed request
is caught by the bare except clause of _sendMsg, logged, and swallowed,
so it does not propagate out of the sending operation. -/
theorem C9_error_propagation :
    (∀ (sep : List Char) (req : List (List Char)),
      sendMsg (fun _ => .error ()) sep req = .ok ()) ∧
    (∀ (sep buf : List Char) (av : List (Option Nat)),
      readMsg sep ⟨buf, Option.none :: av⟩ = .error .sockErr) ∧
    (∀ (sep hdr : List Char) (av : List (Option Nat)) (n : ℤ),
      hdr.length = 8 → pyInt hdr = some n → 0 < n →
      readMsg sep ⟨hdr, Option.some 8 :: Option.none :: av⟩ = .error .sockErr) := by
  refine ⟨fun sep req => rfl, fun sep buf av => ?_, fun sep hdr av n h8 hint hn => ?_⟩
  · unfold readMsg
    rw [recvAll_err buf av 8 (by omega)]
  · unfold readMsg
    rw [recvAll_hdr_sched hdr (Option.none :: av) h8]
    dsimp only
    rw [if_neg (by
      intro habs
      have := congrArg List.length habs
      simp [pyUpper, h8] at this)]
    rw [hint]
    dsimp only
    have htn : 0 < n.toNat := by omega
    rw [show readMsgLoop ⟨[], Option.none :: av⟩ n.toNat [] (n.toNat + 1) =
        .error .sockErr from by
      unfold readMsgLoop
      rw [if_pos (by simpa using htn)]
      rw [recvAll_err [] av _ (by simpa using htn)]]

/-- Witness for C9: a send failure is swallowed; a header-phase and a
payload-phase receive failure each surface as a read error. -/
theorem C9_error_propagation_witness :
    sendMsg (fun _ => .error ()) separator ["MYTH_PROTO_VERSION 40".data] = .ok () ∧
    readMsg separator ⟨[], [Option.none]⟩ = .error .sockErr ∧
    readMsg separator ⟨fmtLJ8 5, [Option.some 8, Option.none]⟩ = .error .sockErr :=
  ⟨C9_error_propagation.1 separator ["MYTH_PROTO_VERSION 40".data],
    C9_error_propagation.2.1 separator [] [],
    C9_error_propagation.2.2 separator (fmtLJ8 5) [] 5
      (fmtLJ8_length 5 (by norm_num)) (pyInt_fmtLJ8 5) (by norm_num)⟩

/-- Counterexample to C9 as stated: an error raised while sending a
framed request does not propagate out of _sendMsg; the call returns
normally. -/
theorem C9_error_propagation_counterexample :
    sendMsg (fun _ => .error ()) separator ["ANN Playback host 0".data] = .ok () ∧
    (Except.ok () : Except Unit Unit) ≠ .error () :=
  ⟨rfl, fun h => by cases h⟩

/-! ### Protocol negotiation (conn.py lines 218-235) -/

/-- Failure modes of negotiateProtocol: a reply too short to index
(IndexError), a server-version token int() cannot parse (ValueError),
or the ProtocolException whose protocolVersion attribute carries the
server's reported version. -/
inductive NegoErr where
  | indexErr
  | valueErr
  | mismatch (serverVersion : ℤ)
deriving DecidableEq

/-- Connection.negotiateProtocol as a function of the reply to the
MYTH_PROTO_VERSION request: reply[0] is read (only logged), reply[1] is
parsed by int() as the server version; a server version strictly below
the client version raises a ProtocolException carrying the server
version, otherwise the server version is returned. -/
def negotiateProtocol (clientVersion : ℤ) (reply : List (List Char)) :
    Except NegoErr ℤ :=
  match reply[0]? with
  | Option.none => .error .indexErr
  | Option.some _ =>
    match reply[1]? with
    | Option.none => .error .indexErr
    | Option.some t =>
      match pyInt t with
      | Option.none => .error .valueErr
      | Option.some serverVersion =>
        if serverVersion < clientVersion then .error (.mismatch serverVersion)
        else .ok serverVersion

/-- C4: for every negotiation exchange whose reply carries a parsed
server version below the client version, negotiateProtocol fails with a
protocol-version-mismatch error carrying the server's reported version;
when the server version is greater than or equal to the client version
it succeeds and returns the server version. -/
theorem C4_negotiate_protocol (clientVersion serverVersion : ℤ)
    (resp t : List Char) (ht : pyInt t = some serverVersion) :
    (serverVersion < clientVersion →
      negotiateProtocol clientVersion [resp, t] =
        .error (.mismatch serverVersion)) ∧
    (clientVersion ≤ serverVersion →
      negotiateProtocol clientVersion [resp, t] = .ok serverVersion) := by
  unfold negotiateProtocol
  simp only [List.getElem?_cons_zero, List.getElem?_cons_succ, ht]
  constructor
  · intro h
    rw [if_pos h]
  · intro h
    rw [if_neg (by omega)]

/-- Witness for C4: server 5 against client 7 fails carrying 5;
server 7 against client 7 succeeds returning 7. -/
theorem C4_negotiate_protocol_witness :
    negotiateProtocol 7 ["ACCEPT".data, "5".data] = .error (.mismatch 5) ∧
    negotiateProtocol 7 ["ACCEPT".data, "7".data] = .ok 7 :=
  ⟨(C4_negotiate_protocol 7 5 "ACCEPT".data "5".data (by decide)).1 (by norm_num),
   (C4_negotiate_protocol 7 7 "ACCEPT".data "7".data (by decide)).2 (le_refl 7)⟩

/-! ### Commercial-break decoding (conn.py lines 850-891) -/

/-- Modelled from the spec: frames2seconds of mythbox.mythtv.domain
(that module is not among the sources): convert a frame offset to
seconds using the recording's frame rate. -/
def frames2seconds (frames : ℤ) (fps : ℚ) : ℚ := (frames : ℚ) / fps

/-- Modelled from the spec: a CommercialBreak of mythbox.mythtv.domain
(not among the sources) is the immutable pair of start and end
positions in seconds derived from frame offsets and the frame rate. -/
structure CommercialBreak where
  start : ℚ
  stop : ℚ
deriving DecidableEq

/-- Failure modes of getCommercialBreaks: ClientException on an odd
record count, ProtocolException on an unexpected marker, ValueError
from int()/long() on a malformed token, IndexError on a short reply. -/
inductive CBErr where
  | clientErr
  | protocolErr
  | valueErr
  | indexErr
deriving DecidableEq

/-- reply[i] with IndexError modelled. -/
def tokAt (reply : List (List Char)) (i : Nat) : Except CBErr (List Char) :=
  match reply[i]? with
  | Option.none => .error .indexErr
  | Option.some t => .ok t

/-- int(reply[i]) with IndexError and ValueError modelled. -/
def intAt (reply : List (List Char)) (i : Nat) : Except CBErr ℤ :=
  match tokAt reply i with
  | .error e => .error e
  | .ok t =>
    match pyInt t with
    | Option.none => .error .valueErr
    | Option.some v => .ok v

/-- The paired loop of getCommercialBreaks: for i in xrange(0, numRecs, 2)
with record size 3, check the COMM_START marker (4), decode the start
frame from the low and high tokens, check the COMM_END marker (5),
decode the end frame, and append the converted break.  The first
argument counts the remaining pairs, the second is the loop variable i. -/
def getCommBreaksGo (fps : ℚ) (reply : List (List Char)) :
    Nat → Nat → Except CBErr (List CommercialBreak)
  | 0, _ => .ok []
  | k + 1, i =>
    match intAt reply (i * 3 + 1) with
    | .error e => .error e
    | .ok commFlagStart =>
      if commFlagStart = 4 then
        match tokAt reply (i * 3 + 3), tokAt reply (i * 3 + 2) with
        | .ok loS, .ok hiS =>
          match decodeLongLongArg (.str loS) (.str hiS) with
          | Option.none => .error .valueErr
          | Option.some frameStart =>
            match intAt reply (i * 3 + 4) with
            | .error e => .error e
            | .ok commFlagEnd =>
              if commFlagEnd = 5 then
                match tokAt reply (i * 3 + 6), tokAt reply (i * 3 + 5) with
                | .ok loE, .ok hiE =>
                  match decodeLongLongArg (.str loE) (.str hiE) with
                  | Option.none => .error .valueErr
                  | Option.some frameEnd =>
                    match getCommBreaksGo fps reply k (i + 2) with
                    | .error e => .error e
                    | .ok rest =>
                      .ok (⟨frames2seconds frameStart fps,
                            frames2seconds frameEnd fps⟩ :: rest)
                | .error e, _ => .error e
                | _, .error e => .error e
              else .error .protocolErr
        | .error e, _ => .error e
        | _, .error e => .error e
      else .error .protocolErr

/-- Connection.getCommercialBreaks as a function of the QUERY_COMMBREAK
reply tokens and the program's frame rate: a count of -1 yields no
breaks, an odd count raises ClientException, otherwise numRecs/2 pairs
are decoded. -/
def getCommercialBreaks (fps : ℚ) (reply : List (List Char)) :
    Except CBErr (List CommercialBreak) :=
  match intAt reply 0 with
  | .error e => .error e
  | .ok numRecs =>
    if numRecs = -1 then .ok []
    else if numRecs % 2 ≠ 0 then .error .clientErr
    else getCommBreaksGo fps reply (numRecs.toNat / 2) 0

/-- The six tokens of one start/end record pair in a QUERY_COMMBREAK
reply: start marker, start high word, start low word, end marker, end
high word, end low word. -/
structure CBBlock where
  sM : List Char
  hiS : List Char
  loS : List Char
  eM : List Char
  hiE : List Char
  loE : List Char
deriving DecidableEq

/-- The wire tokens of one pair, in reply order. -/
def cbBlockToks (b : CBBlock) : List (List Char) :=
  [b.sM, b.hiS, b.loS, b.eM, b.hiE, b.loE]

/-- A well-formed pair: the markers parse to the COMM_START and COMM_END
sentinels 4 and 5 and the frame words parse through the codec. -/
def cbBlockOkB (b : CBBlock) : Bool :=
  pyInt b.sM == some 4 && pyInt b.eM == some 5 &&
  (decodeLongLongArg (.str b.loS) (.str b.hiS)).isSome &&
  (decodeLongLongArg (.str b.loE) (.str b.hiE)).isSome

/-- The commercial break a well-formed pair decodes to. -/
def cbBlockBreak (fps : ℚ) (b : CBBlock) : CommercialBreak :=
  ⟨frames2seconds ((decodeLongLongArg (.str b.loS) (.str b.hiS)).getD 0) fps,
   frames2seconds ((decodeLongLongArg (.str b.loE) (.str b.hiE)).getD 0) fps⟩

/-- Indexing past a known prefix of the reply. -/
theorem tokAt_append (pre l : List (List Char)) (m : Nat) (t : List Char)
    (hm : l[m]? = some t) : tokAt (pre ++ l) (pre.length + m) = .ok t := by
  unfold tokAt
  rw [List.getElem?_append_right (by omega),
    show pre.length + m - pre.length = m from by omega, hm]

/-- The pair loop decodes a run of well-formed pairs, one break per
pair, in reply order. -/
theorem getCommBreaksGo_spec (fps : ℚ) :
    ∀ (blocks : List CBBlock) (j : Nat) (pre : List (List Char)),
      pre.length = 1 + 6 * j →
      (∀ b ∈ blocks, cbBlockOkB b = true) →
      getCommBreaksGo fps (pre ++ (blocks.map cbBlockToks).join)
          blocks.length (2 * j) = .ok (blocks.map (cbBlockBreak fps)) := by
  intro blocks
  induction blocks with
  | nil =>
    intro j pre hpre hall
    simp [getCommBreaksGo]
  | cons b rest ih =>
    intro j pre hpre hall
    have hok := hall b (by simp)
    simp only [cbBlockOkB, Bool.and_eq_true, beq_iff_eq] at hok
    obtain ⟨⟨⟨hsM, heM⟩, hfsS⟩, hfeS⟩ := hok
    obtain ⟨fs, hfs⟩ := Option.isSome_iff_exists.mp hfsS
    obtain ⟨fe, hfe⟩ := Option.isSome_iff_exists.mp hfeS
    have hreply : ((b :: rest).map cbBlockToks).join =
        cbBlockToks b ++ (rest.map cbBlockToks).join := by
      simp
    have ht1 : tokAt (pre ++ (cbBlockToks b ++ (rest.map cbBlockToks).join))
        (2 * j * 3 + 1) = .ok b.sM := by
      rw [show 2 * j * 3 + 1 = pre.length + 0 from by omega]
      exact tokAt_append _ _ _ _ (by simp [cbBlockToks])
    have ht2 : tokAt (pre ++ (cbBlockToks b ++ (rest.map cbBlockToks).join))
        (2 * j * 3 + 2) = .ok b.hiS := by
      rw [show 2 * j * 3 + 2 = pre.length + 1 from by omega]
      exact tokAt_append _ _ _ _ (by simp [cbBlockToks])
    have ht3 : tokAt (pre ++ (cbBlockToks b ++ (rest.map cbBlockToks).join))
        (2 * j * 3 + 3) = .ok b.loS := by
      rw [show 2 * j * 3 + 3 = pre.length + 2 from by omega]
      exact tokAt_append _ _ _ _ (by simp [cbBlockToks])
    have ht4 : tokAt (pre ++ (cbBlockToks b ++ (rest.map cbBlockToks).join))
        (2 * j * 3 + 4) = .ok b.eM := by
      rw [show 2 * j * 3 + 4 = pre.length + 3 from by omega]
      exact tokAt_append _ _ _ _ (by simp [cbBlockToks])
    have ht5 : tokAt (pre ++ (cbBlockToks b ++ (rest.map cbBlockToks).join))
        (2 * j * 3 + 5) = .ok b.hiE := by
      rw [show 2 * j * 3 + 5 = pre.length + 4 from by omega]
      exact tokAt_append _ _ _ _ (by simp [cbBlockToks])
    have ht6 : tokAt (pre ++ (cbBlockToks b ++ (rest.map cbBlockToks).join))
        (2 * j * 3 + 6) = .ok b.loE := by
      rw [show 2 * j * 3 + 6 = pre.length + 5 from by omega]
      exact tokAt_append _ _ _ _ (by simp [cbBlockToks])
    have hrec : getCommBreaksGo fps
        (pre ++ (cbBlockToks b ++ (rest.map cbBlockToks).join))
        rest.length (2 * j + 2) = .ok (rest.map (cbBlockBreak fps)) := by
      rw [show pre ++ (cbBlockToks b ++ (rest.map cbBlockToks).join) =
        (pre ++ cbBlockToks b) ++ (rest.map cbBlockToks).join from by simp,
        show 2 * j + 2 = 2 * (j + 1) from by omega]
      exact ih (j + 1) (pre ++ cbBlockToks b)
        (by simp [cbBlockToks, hpre]; omega)
        (fun u hu => hall u (by simp [hu]))
    rw [hreply]
    simp only [List.length_cons, List.map_cons]
    simp only [getCommBreaksGo, intAt, ht1, ht2, ht3, ht4, ht5, ht6,
      hsM, heM, hfs, hfe, hrec]
    simp [cbBlockBreak, hfs, hfe]

/-- Tokens of a run of pairs occupy exactly six positions per pair. -/
theorem joinToks_length (good : List CBBlock) :
    ((good.map cbBlockToks).join).length = 6 * good.length := by
  induction good with
  | nil => simp
  | cons g gs ih =>
    simp only [List.map_cons, List.join_cons, List.length_append, ih, cbBlockToks,
      List.length_cons, List.length_nil]
    omega

/-- The loop raises the protocol error at a pair whose start marker is
wrong, wherever in the reply that pair sits. -/
theorem getCommBreaksGo_badStart (fps : ℚ) (pre : List (List Char)) (j : Nat)
    (b : CBBlock) (tail : List (List Char)) (k : Nat) (m : ℤ)
    (hpre : pre.length = 1 + 6 * j)
    (hm : pyInt b.sM = some m) (hne : m ≠ 4) :
    getCommBreaksGo fps (pre ++ (cbBlockToks b ++ tail)) (k + 1) (2 * j) =
      .error .protocolErr := by
  have ht1 : tokAt (pre ++ (cbBlockToks b ++ tail)) (2 * j * 3 + 1) = .ok b.sM := by
    rw [show 2 * j * 3 + 1 = pre.length + 0 from by omega]
    exact tokAt_append _ _ _ _ (by simp [cbBlockToks])
  simp only [getCommBreaksGo, intAt, ht1, hm]
  rw [if_neg hne]

/-- The loop raises the protocol error at a pair whose end marker is
wrong, wherever in the reply that pair sits. -/
theorem getCommBreaksGo_badEnd (fps : ℚ) (pre : List (List Char)) (j : Nat)
    (b : CBBlock) (tail : List (List Char)) (k : Nat) (m : ℤ)
    (hpre : pre.length = 1 + 6 * j)
    (hsM : pyInt b.sM = some 4)
    (hfsS : (decodeLongLongArg (.str b.loS) (.str b.hiS)).isSome = true)
    (heM : pyInt b.eM = some m) (hne : m ≠ 5) :
    getCommBreaksGo fps (pre ++ (cbBlockToks b ++ tail)) (k + 1) (2 * j) =
      .error .protocolErr := by
  obtain ⟨fs, hfs⟩ := Option.isSome_iff_exists.mp hfsS
  have ht1 : tokAt (pre ++ (cbBlockToks b ++ tail)) (2 * j * 3 + 1) = .ok b.sM := by
    rw [show 2 * j * 3 + 1 = pre.length + 0 from by omega]
    exact tokAt_append _ _ _ _ (by simp [cbBlockToks])
  have ht2 : tokAt (pre ++ (cbBlockToks b ++ tail)) (2 * j * 3 + 2) = .ok b.hiS := by
    rw [show 2 * j * 3 + 2 = pre.length + 1 from by omega]
    exact tokAt_append _ _ _ _ (by simp [cbBlockToks])
  have ht3 : tokAt (pre ++ (cbBlockToks b ++ tail)) (2 * j * 3 + 3) = .ok b.loS := by
    rw [show 2 * j * 3 + 3 = pre.length + 2 from by omega]
    exact tokAt_append _ _ _ _ (by simp [cbBlockToks])
  have ht4 : tokAt (pre ++ (cbBlockToks b ++ tail)) (2 * j * 3 + 4) = .ok b.eM := by
    rw [show 2 * j * 3 + 4 = pre.length + 3 from by omega]
    exact tokAt_append _ _ _ _ (by simp [cbBlockToks])
  simp only [getCommBreaksGo, intAt, ht1, ht2, ht3, ht4, hsM, heM, hfs]
  simp only [if_true]
  rw [if_neg hne]

/-- A loop error raised beyond a run of well-formed pairs propagates
through the loop's traversal of that run. -/
theorem getCommBreaksGo_err_prefix (fps : ℚ) :
    ∀ (good : List CBBlock) (j k : Nat) (pre tail : List (List Char)) (e : CBErr),
      pre.length = 1 + 6 * j →
      (∀ g ∈ good, cbBlockOkB g = true) →
      getCommBreaksGo fps (pre ++ ((good.map cbBlockToks).join ++ tail)) k
          (2 * (j + good.length)) = .error e →
      getCommBreaksGo fps (pre ++ ((good.map cbBlockToks).join ++ tail))
          (good.length + k) (2 * j) = .error e := by
  intro good
  induction good with
  | nil =>
    intro j k pre tail e hpre hall h
    simpa using h
  | cons g gs ih =>
    intro j k pre tail e hpre hall h
    have hg := hall g (by simp)
    simp only [cbBlockOkB, Bool.and_eq_true, beq_iff_eq] at hg
    obtain ⟨⟨⟨hsM, heM⟩, hfsS⟩, hfeS⟩ := hg
    obtain ⟨fs, hfs⟩ := Option.isSome_iff_exists.mp hfsS
    obtain ⟨fe, hfe⟩ := Option.isSome_iff_exists.mp hfeS
    have hshape : pre ++ (((g :: gs).map cbBlockToks).join ++ tail) =
        pre ++ (cbBlockToks g ++ ((gs.map cbBlockToks).join ++ tail)) := by
      simp
    rw [hshape] at h ⊢
    simp only [List.length_cons] at h ⊢
    have ht1 : tokAt (pre ++ (cbBlockToks g ++ ((gs.map cbBlockToks).join ++ tail)))
        (2 * j * 3 + 1) = .ok g.sM := by
      rw [show 2 * j * 3 + 1 = pre.length + 0 from by omega]
      exact tokAt_append _ _ _ _ (by simp [cbBlockToks])
    have ht2 : tokAt (pre ++ (cbBlockToks g ++ ((gs.map cbBlockToks).join ++ tail)))
        (2 * j * 3 + 2) = .ok g.hiS := by
      rw [show 2 * j * 3 + 2 = pre.length + 1 from by omega]
      exact tokAt_append _ _ _ _ (by simp [cbBlockToks])
    have ht3 : tokAt (pre ++ (cbBlockToks g ++ ((gs.map cbBlockToks).join ++ tail)))
        (2 * j * 3 + 3) = .ok g.loS := by
      rw [show 2 * j * 3 + 3 = pre.length + 2 from by omega]
      exact tokAt_append _ _ _ _ (by simp [cbBlockToks])
    have ht4 : tokAt (pre ++ (cbBlockToks g ++ ((gs.map cbBlockToks).join ++ tail)))
        (2 * j * 3 + 4) = .ok g.eM := by
      rw [show 2 * j * 3 + 4 = pre.length + 3 from by omega]
      exact tokAt_append _ _ _ _ (by simp [cbBlockToks])
    have ht5 : tokAt (pre ++ (cbBlockToks g ++ ((gs.map cbBlockToks).join ++ tail)))
        (2 * j * 3 + 5) = .ok g.hiE := by
      rw [show 2 * j * 3 + 5 = pre.length + 4 from by omega]
      exact tokAt_append _ _ _ _ (by simp [cbBlockToks])
    have ht6 : tokAt (pre ++ (cbBlockToks g ++ ((gs.map cbBlockToks).join ++ tail)))
        (2 * j * 3 + 6) = .ok g.loE := by
      rw [show 2 * j * 3 + 6 = pre.length + 5 from by omega]
      exact tokAt_append _ _ _ _ (by simp [cbBlockToks])
    have hrec : getCommBreaksGo fps
        (pre ++ (cbBlockToks g ++ ((gs.map cbBlockToks).join ++ tail)))
        (gs.length + k) (2 * j + 2) = .error e := by
      have hassoc : pre ++ (cbBlockToks g ++ ((gs.map cbBlockToks).join ++ tail)) =
          (pre ++ cbBlockToks g) ++ ((gs.map cbBlockToks).join ++ tail) := by
        simp
      rw [hassoc, show 2 * j + 2 = 2 * (j + 1) from by ring]
      apply ih (j + 1) k (pre ++ cbBlockToks g) tail e
        (by
          simp only [List.length_append, hpre, cbBlockToks, List.length_cons,
            List.length_nil]
          omega)
        (fun u hu => hall u (by simp [hu]))
      rw [← hassoc, show 2 * ((j + 1) + gs.length) = 2 * (j + (gs.length + 1)) from
        by ring]
      exact h
    rw [show gs.length + 1 + k = (gs.length + k) + 1 from by omega]
    simp only [getCommBreaksGo, intAt, ht1, ht2, ht3, ht4, ht5, ht6,
      hsM, heM, hfs, hfe, hrec]
    simp

/-- C5: a QUERY_COMMBREAK reply count of -1 yields no commercial breaks;
an odd non-negative count raises a client error; a count of 2k over k
well-formed start/end record pairs (markers parsing to the COMM_START
and COMM_END sentinels 4 and 5) yields exactly k CommercialBreak
entries, one per pair in reply order, each converted from frame offsets
to seconds by the frame rate; a record at any position in the reply
whose start or end marker differs from the expected sentinel (the pairs
before it well-formed) raises a protocol error. -/
theorem C5_commbreak_decode :
    (∀ (fps : ℚ) (countTok : List Char) (rest : List (List Char)),
      pyInt countTok = some (-1) →
      getCommercialBreaks fps (countTok :: rest) = .ok []) ∧
    (∀ (fps : ℚ) (countTok : List Char) (rest : List (List Char)) (n : ℤ),
      pyInt countTok = some n → 0 ≤ n → n % 2 = 1 →
      getCommercialBreaks fps (countTok :: rest) = .error .clientErr) ∧
    (∀ (fps : ℚ) (countTok : List Char) (blocks : List CBBlock),
      pyInt countTok = some (2 * (blocks.length : ℤ)) →
      (∀ b ∈ blocks, cbBlockOkB b = true) →
      getCommercialBreaks fps (countTok :: (blocks.map cbBlockToks).join) =
        .ok (blocks.map (cbBlockBreak fps)) ∧
      (blocks.map (cbBlockBreak fps)).length = blocks.length) ∧
    (∀ (fps : ℚ) (countTok : List Char) (good : List CBBlock) (b : CBBlock)
        (rest : List CBBlock) (m : ℤ),
      pyInt countTok = some (2 * ((good.length : ℤ) + 1 + (rest.length : ℤ))) →
      (∀ g ∈ good, cbBlockOkB g = true) →
      pyInt b.sM = some m → m ≠ 4 →
      getCommercialBreaks fps
          (countTok :: ((good ++ b :: rest).map cbBlockToks).join) =
        .error .protocolErr) ∧
    (∀ (fps : ℚ) (countTok : List Char) (good : List CBBlock) (b : CBBlock)
        (rest : List CBBlock) (m : ℤ),
      pyInt countTok = some (2 * ((good.length : ℤ) + 1 + (rest.length : ℤ))) →
      (∀ g ∈ good, cbBlockOkB g = true) →
      pyInt b.sM = some 4 →
      (decodeLongLongArg (.str b.loS) (.str b.hiS)).isSome = true →
      pyInt b.eM = some m → m ≠ 5 →
      getCommercialBreaks fps
          (countTok :: ((good ++ b :: rest).map cbBlockToks).join) =
        .error .protocolErr) := by
  have hcount : ∀ (countTok : List Char) (rest : List (List Char)) (n : ℤ),
      pyInt countTok = some n →
      intAt (countTok :: rest) 0 = .ok n := by
    intro countTok rest n hn
    simp [intAt, tokAt, hn]
  have hhead : ∀ (countTok : List Char) (b : CBBlock) (rest : List CBBlock),
      tokAt (countTok :: ((b :: rest).map cbBlockToks).join) (0 * 3 + 1) =
        .ok b.sM := by
    intro countTok b rest
    have : countTok :: ((b :: rest).map cbBlockToks).join =
        [countTok] ++ (cbBlockToks b ++ (rest.map cbBlockToks).join) := by simp
    rw [this, show 0 * 3 + 1 = ([countTok] : List (List Char)).length + 0 from by simp]
    exact tokAt_append _ _ _ _ (by simp [cbBlockToks])
  refine ⟨?_, ?_, ?_, ?_, ?_⟩
  · intro fps countTok rest hc
    unfold getCommercialBreaks
    rw [hcount countTok rest _ hc]
    simp
  · intro fps countTok rest n hc h0 hodd
    unfold getCommercialBreaks
    rw [hcount countTok rest _ hc]
    dsimp only
    rw [if_neg (by omega), if_pos (by omega)]
  · intro fps countTok blocks hc hall
    constructor
    · unfold getCommercialBreaks
      rw [hcount countTok _ _ hc]
      dsimp only
      rw [if_neg (by
          intro habs
          have : (0 : ℤ) ≤ 2 * (blocks.length : ℤ) := by positivity
          omega),
        if_neg (by
          push_neg
          omega)]
      rw [show (2 * (blocks.length : ℤ)).toNat / 2 = blocks.length from by omega]
      have := getCommBreaksGo_spec fps blocks 0 [countTok] (by simp) hall
      simpa using this
    · simp
  · intro fps countTok good b rest m hc hgood hm hne
    unfold getCommercialBreaks
    rw [hcount countTok _ _ hc]
    dsimp only
    rw [if_neg (by
        have h1 : (0 : ℤ) ≤ (good.length : ℤ) := by positivity
        have h2 : (0 : ℤ) ≤ (rest.length : ℤ) := by positivity
        omega),
      if_neg (by push_neg; omega)]
    rw [show (2 * ((good.length : ℤ) + 1 + (rest.length : ℤ))).toNat / 2 =
        good.length + (rest.length + 1) from by omega]
    rw [show countTok :: ((good ++ b :: rest).map cbBlockToks).join =
        [countTok] ++ ((good.map cbBlockToks).join ++
          (cbBlockToks b ++ (rest.map cbBlockToks).join)) from by simp]
    apply getCommBreaksGo_err_prefix fps good 0 (rest.length + 1) [countTok] _
      .protocolErr (by simp) hgood
    rw [show [countTok] ++ ((good.map cbBlockToks).join ++
          (cbBlockToks b ++ (rest.map cbBlockToks).join)) =
        ([countTok] ++ (good.map cbBlockToks).join) ++
          (cbBlockToks b ++ (rest.map cbBlockToks).join) from by simp,
      show 2 * (0 + good.length) = 2 * good.length from by ring]
    exact getCommBreaksGo_badStart fps ([countTok] ++ (good.map cbBlockToks).join)
      good.length b _ rest.length m
      (by
        simp only [List.length_append, List.length_cons, List.length_nil,
          joinToks_length]
        try omega)
      hm hne
  · intro fps countTok good b rest m hc hgood hsM hfsS heM hne
    unfold getCommercialBreaks
    rw [hcount countTok _ _ hc]
    dsimp only
    rw [if_neg (by
        have h1 : (0 : ℤ) ≤ (good.length : ℤ) := by positivity
        have h2 : (0 : ℤ) ≤ (rest.length : ℤ) := by positivity
        omega),
      if_neg (by push_neg; omega)]
    rw [show (2 * ((good.length : ℤ) + 1 + (rest.length : ℤ))).toNat / 2 =
        good.length + (rest.length + 1) from by omega]
    rw [show countTok :: ((good ++ b :: rest).map cbBlockToks).join =
        [countTok] ++ ((good.map cbBlockToks).join ++
          (cbBlockToks b ++ (rest.map cbBlockToks).join)) from by simp]
    apply getCommBreaksGo_err_prefix fps good 0 (rest.length + 1) [countTok] _
      .protocolErr (by simp) hgood
    rw [show [countTok] ++ ((good.map cbBlockToks).join ++
          (cbBlockToks b ++ (rest.map cbBlockToks).join)) =
        ([countTok] ++ (good.map cbBlockToks).join) ++
          (cbBlockToks b ++ (rest.map cbBlockToks).join) from by simp,
      show 2 * (0 + good.length) = 2 * good.length from by ring]
    exact getCommBreaksGo_badEnd fps ([countTok] ++ (good.map cbBlockToks).join)
      good.length b _ rest.length m
      (by
        simp only [List.length_append, List.length_cons, List.length_nil,
          joinToks_length]
        try omega)
      hsM hfsS heM hne

/-- Witness for C5: frame rate 2; count 4 over two well-formed pairs
decodes to two breaks in order; count 3 is a client error; count -1 is
no data; a start marker of 6, or an end marker of 7, in the second of
two pairs (the first pair well-formed) is a protocol error. -/
theorem C5_commbreak_decode_witness :
    getCommercialBreaks 2 ("-1".data :: []) = .ok [] ∧
    getCommercialBreaks 2 ("3".data :: []) = .error .clientErr ∧
    getCommercialBreaks 2 ("4".data ::
        (([⟨"4".data, "0".data, "30".data, "5".data, "0".data, "60".data⟩,
           ⟨"4".data, "0".data, "120".data, "5".data, "0".data, "180".data⟩] :
          List CBBlock).map cbBlockToks).join) =
      .ok (([⟨"4".data, "0".data, "30".data, "5".data, "0".data, "60".data⟩,
             ⟨"4".data, "0".data, "120".data, "5".data, "0".data, "180".data⟩] :
            List CBBlock).map (cbBlockBreak 2)) ∧
    getCommercialBreaks 2 ("4".data ::
        ((([⟨"4".data, "0".data, "30".data, "5".data, "0".data, "60".data⟩] ++
           ⟨"6".data, "0".data, "120".data, "5".data, "0".data, "180".data⟩ :: []) :
          List CBBlock).map cbBlockToks).join) = .error .protocolErr ∧
    getCommercialBreaks 2 ("4".data ::
        ((([⟨"4".data, "0".data, "30".data, "5".data, "0".data, "60".data⟩] ++
           ⟨"4".data, "0".data, "120".data, "7".data, "0".data, "180".data⟩ :: []) :
          List CBBlock).map cbBlockToks).join) = .error .protocolErr :=
  ⟨C5_commbreak_decode.1 2 "-1".data [] (by decide),
   C5_commbreak_decode.2.1 2 "3".data [] 3 (by decide) (by norm_num) (by decide),
   (C5_commbreak_decode.2.2.1 2 "4".data _ (by decide) (by decide)).1,
   C5_commbreak_decode.2.2.2.1 2 "4".data
     [⟨"4".data, "0".data, "30".data, "5".data, "0".data, "60".data⟩]
     ⟨"6".data, "0".data, "120".data, "5".data, "0".data, "180".data⟩ [] 6
     (by decide) (by decide) (by decide) (by decide),
   C5_commbreak_decode.2.2.2.2 2 "4".data
     [⟨"4".data, "0".data, "30".data, "5".data, "0".data, "60".data⟩]
     ⟨"4".data, "0".data, "120".data, "7".data, "0".data, "180".data⟩ [] 7
     (by decide) (by decide) (by decide) (by decide) (by decide) (by decide)⟩

/-! ### The file-transfer loop (conn.py lines 1028-1098)

transferFile's loop, over the data socket (modelled by Sock) and the
command socket.  The command-socket interactions are recorded as trace
events: one reqBlock per QUERY_FILETRANSFER ... REQUEST_BLOCK message
sent, one ackRead per _readMsg acknowledgment consumed; each chunk
written to the destination file is a wrote event, in arrival order. -/

/-- Events observed during a transfer, in program order. -/
inductive XEvent where
  | reqBlock (size : Nat)
  | wrote (chunk : List Char)
  | ackRead
deriving DecidableEq

/-- The inner partial-read loop of transferFile (conn.py 1071-1082):
while blockTransferred < blockSize, recv the missing bytes from the
data socket and write any non-empty chunk to the file.  The source loop
has no exit when recv returns the empty string (remote closure), so the
model carries fuel, and a loop that makes no progress exhausts any fuel
(returns none); none also covers a recv exception, which aborts the
transfer. -/
def xferInner : Nat → Sock → Nat → Nat → Option (List XEvent × Sock)
  | fuel, sk, blockSize, t =>
    if t < blockSize then
      match fuel with
      | 0 => none
      | fuel + 1 =>
        match recv sk (blockSize - t) with
        | .error _ => none
        | .ok (data, sk') =>
          match xferInner fuel sk' blockSize (t + data.length) with
          | none => none
          | some (evs', sk'') =>
            some ((if data.isEmpty then ([] : List XEvent) else [.wrote data])
              ++ evs', sk'')
    else some ([], sk)

/-- The outer block loop of transferFile (conn.py 1066-1086): while
bytes remain, request a block of at most 2,000,000 bytes on the command
socket, read exactly that many bytes from the data socket writing
chunks as they arrive, then consume one acknowledgment reply from the
command socket, and subtract the block from the remaining count. -/
def xferLoop (dsk : Sock) (remaining : Nat) : Option (List XEvent × Sock) :=
  if remaining = 0 then some ([], dsk)
  else
    match xferInner (min remaining 2000000) dsk (min remaining 2000000) 0 with
    | none => none
    | some (evs, dsk') =>
      match xferLoop dsk' (remaining - min remaining 2000000) with
      | none => none
      | some (evs', dsk'') =>
        some (.reqBlock (min remaining 2000000) :: (evs ++ .ackRead :: evs'), dsk'')
termination_by remaining
decreasing_by
  have h1 : min remaining 2000000 ≤ remaining := Nat.min_le_left _ _
  have h2 : 1 ≤ min remaining 2000000 := le_min (by omega) (by omega)
  omega

/-- The block sizes the transfer loop requests, per the spec: while
bytes remain, a block of at most 2,000,000 bytes, until zero remain. -/
def specBlocks (r : Nat) : List Nat :=
  if r = 0 then [] else min r 2000000 :: specBlocks (r - min r 2000000)
termination_by r
decreasing_by
  have h1 : min r 2000000 ≤ r := Nat.min_le_left _ _
  have h2 : 1 ≤ min r 2000000 := le_min (by omega) (by omega)
  omega

/-- Is this event a file write? -/
def isWrote : XEvent → Bool
  | .wrote _ => true
  | _ => false

/-- The bytes a trace writes to the destination, in order. -/
def writtenOf : List XEvent → List Char
  | [] => []
  | .wrote c :: tr => c ++ writtenOf tr
  | _ :: tr => writtenOf tr

/-- The acknowledgment replies a trace consumes. -/
def ackCount : List XEvent → Nat
  | [] => 0
  | .ackRead :: tr => ackCount tr + 1
  | _ :: tr => ackCount tr

/-- The per-block discipline of the spec: for each block size in turn,
one block request for exactly that size, then only file writes, then
exactly one acknowledgment read, with nothing after the last block. -/
def matchesBlockTrace : List Nat → List XEvent → Bool
  | [], tr => tr.isEmpty
  | bsz :: rest, .reqBlock b :: tr =>
    (b == bsz) &&
      (match tr.dropWhile isWrote with
       | .ackRead :: tr' => matchesBlockTrace rest tr'
       | _ => false)
  | _ :: _, _ => false

/-- A data-socket schedule that never raises and always offers at least
one byte per recv. -/
def availOk : List (Option Nat) → Bool
  | [] => true
  | Option.some k :: rest => decide (1 ≤ k) && availOk rest
  | Option.none :: _ => false

/-- writtenOf distributes over trace concatenation. -/
theorem writtenOf_append (tr1 tr2 : List XEvent) :
    writtenOf (tr1 ++ tr2) = writtenOf tr1 ++ writtenOf tr2 := by
  induction tr1 with
  | nil => simp [writtenOf]
  | cons e tr ih =>
    cases e <;> simp [writtenOf, ih]

/-- ackCount distributes over trace concatenation. -/
theorem ackCount_append (tr1 tr2 : List XEvent) :
    ackCount (tr1 ++ tr2) = ackCount tr1 + ackCount tr2 := by
  induction tr1 with
  | nil => simp [ackCount]
  | cons e tr ih =>
    cases e <;> simp [ackCount, ih] <;> omega

/-- Every requested block is bounded by 2,000,000 bytes. -/
theorem specBlocks_le (r : Nat) : ∀ b ∈ specBlocks r, b ≤ 2000000 := by
  induction r using Nat.strong_induction_on with
  | _ r ih =>
    intro b hb
    rw [specBlocks] at hb
    split at hb
    · simp at hb
    next h =>
      rcases List.mem_cons.mp hb with rfl | hb2
      · exact Nat.min_le_right _ _
      · have h1 : min r 2000000 ≤ r := Nat.min_le_left _ _
        have h2 : 1 ≤ min r 2000000 := le_min (by omega) (by omega)
        exact ih (r - min r 2000000) (by omega) b hb2

/-- Taking a sum of lengths splits at the first summand. -/
theorem take_add_own (l : List Char) (m n : Nat) :
    l.take (m + n) = l.take m ++ (l.drop m).take n := by
  rw [List.take_drop]
  rw [show l.take m = (l.take (m + n)).take m from by
    rw [List.take_take, Nat.min_eq_left (Nat.le_add_right m n)]]
  exact (List.take_append_drop m (l.take (m + n))).symm

/-- Under a benign schedule with enough buffered bytes and fuel, the
inner loop reads exactly the missing bytes of the block, emitting only
writes, in arrival order. -/
theorem xferInner_spec : ∀ (fuel blockSize t : Nat) (sk : Sock),
    availOk sk.avail = true → blockSize - t ≤ fuel →
    blockSize - t ≤ sk.buf.length →
    ∃ evs sk', xferInner fuel sk blockSize t = some (evs, sk') ∧
      (∀ e ∈ evs, isWrote e = true) ∧
      writtenOf evs = sk.buf.take (blockSize - t) ∧
      sk'.buf = sk.buf.drop (blockSize - t) ∧
      availOk sk'.avail = true := by
  intro fuel
  induction fuel with
  | zero =>
    intro blockSize t sk hav hfuel hbuf
    have ht : ¬ t < blockSize := by omega
    refine ⟨[], sk, ?_, by simp, ?_, ?_, hav⟩
    · rw [xferInner, if_neg ht]
    · rw [show blockSize - t = 0 from by omega]
      simp [writtenOf]
    · rw [show blockSize - t = 0 from by omega]
      simp
  | succ fuel ih =>
    intro blockSize t sk hav hfuel hbuf
    by_cases ht : t < blockSize
    · have hneed : 1 ≤ blockSize - t := by omega
      have hbufpos : 1 ≤ sk.buf.length := by omega
      -- recv analysis
      obtain ⟨d, sk1, hrecv, hdlen, hdle, hdeq, hbuf1, hav1⟩ :
          ∃ d sk1, recv sk (blockSize - t) = .ok (d, sk1) ∧
            1 ≤ d.length ∧ d.length ≤ blockSize - t ∧
            d = sk.buf.take d.length ∧
            sk1.buf = sk.buf.drop d.length ∧ availOk sk1.avail = true := by
        match hsk : sk.avail with
        | [] =>
          refine ⟨sk.buf.take (blockSize - t), ⟨sk.buf.drop (blockSize - t), []⟩,
            by simp [recv, hsk], ?_, ?_, ?_, ?_, rfl⟩
          · simp only [List.length_take]
            omega
          · simp only [List.length_take]
            omega
          · simp only [List.length_take]
            rw [Nat.min_eq_left (by omega)]
          · simp only [List.length_take]
            rw [Nat.min_eq_left (by omega)]
        | Option.some k :: rest =>
          rw [hsk] at hav
          simp only [availOk, Bool.and_eq_true, decide_eq_true_eq] at hav
          obtain ⟨hk, hrest⟩ := hav
          refine ⟨sk.buf.take (min (blockSize - t) k),
            ⟨sk.buf.drop (min (blockSize - t) k), rest⟩,
            by simp [recv, hsk], ?_, ?_, ?_, ?_, hrest⟩
          · simp only [List.length_take]
            omega
          · simp only [List.length_take]
            omega
          · simp only [List.length_take]
            congr 1
            omega
          · simp only [List.length_take]
            congr 1
            omega
        | Option.none :: rest =>
          rw [hsk] at hav
          simp [availOk] at hav
      have hdne : d.isEmpty = false := by
        cases d
        · simp at hdlen
        · simp
      obtain ⟨evs', sk', hrec, hwr, hwv, hbuf', hav'⟩ :=
        ih blockSize (t + d.length) sk1 hav1 (by omega) (by
          rw [hbuf1]
          simp only [List.length_drop]
          omega)
      refine ⟨.wrote d :: evs', sk', ?_, ?_, ?_, ?_, hav'⟩
      · rw [xferInner]
        rw [if_pos ht, hrecv]
        dsimp only
        rw [hrec, hdne]
        simp
      · intro e he
        rcases List.mem_cons.mp he with rfl | he2
        · rfl
        · exact hwr e he2
      · simp only [writtenOf]
        rw [hwv, hbuf1, Nat.sub_add_eq]
        conv_rhs => rw [show blockSize - t = d.length + (blockSize - t - d.length) from by omega]
        rw [take_add_own]
        nth_rewrite 1 [hdeq]
        rfl
      · rw [hbuf', hbuf1, List.drop_drop]
        congr 1
        omega
    · refine ⟨[], sk, ?_, by simp, ?_, ?_, hav⟩
      · rw [xferInner, if_neg ht]
      · rw [show blockSize - t = 0 from by omega]
        simp [writtenOf]
      · rw [show blockSize - t = 0 from by omega]
        simp

/-- A trace of writes only consumes no acknowledgments. -/
theorem ackCount_of_wrotes (evs : List XEvent)
    (h : ∀ e ∈ evs, isWrote e = true) : ackCount evs = 0 := by
  induction evs with
  | nil => rfl
  | cons e tr ih =>
    have he := h e (by simp)
    cases e with
    | reqBlock s => simp [isWrote] at he
    | wrote c =>
      simp only [ackCount]
      exact ih fun x hx => h x (by simp [hx])
    | ackRead => simp [isWrote] at he

/-- The transfer loop, on a data socket buffering exactly the remaining
bytes under a benign schedule, produces the full per-block spec trace:
one bounded request, the block's bytes written in arrival order, one
acknowledgment consumed, per block. -/
theorem xferLoop_spec : ∀ (remaining : Nat) (sk : Sock),
    availOk sk.avail = true → sk.buf.length = remaining →
    ∃ tr sk', xferLoop sk remaining = some (tr, sk') ∧
      matchesBlockTrace (specBlocks remaining) tr = true ∧
      writtenOf tr = sk.buf ∧
      ackCount tr = (specBlocks remaining).length := by
  intro remaining
  induction remaining using Nat.strong_induction_on with
  | _ remaining ih =>
    intro sk hav hlen
    by_cases h0 : remaining = 0
    · subst h0
      refine ⟨[], sk, ?_, ?_, ?_, ?_⟩
      · rw [xferLoop]
        simp
      · rw [specBlocks]
        simp [matchesBlockTrace]
      · have hb : sk.buf = [] := List.length_eq_zero.mp hlen
        simp [writtenOf, hb]
      · rw [specBlocks]
        simp [ackCount]
    · have hbs1 : 1 ≤ min remaining 2000000 := le_min (by omega) (by omega)
      have hbsle : min remaining 2000000 ≤ remaining := Nat.min_le_left _ _
      obtain ⟨evs, sk1, hinner, hwr, hwv, hbuf1, hav1⟩ :=
        xferInner_spec (min remaining 2000000) (min remaining 2000000) 0 sk hav
          (by omega) (by omega)
      obtain ⟨tr', sk'', hloop, hmatch, hwv', hack⟩ :=
        ih (remaining - min remaining 2000000) (by omega) sk1 hav1
          (by rw [hbuf1]; simp only [List.length_drop]; omega)
      refine ⟨.reqBlock (min remaining 2000000) :: (evs ++ .ackRead :: tr'),
        sk'', ?_, ?_, ?_, ?_⟩
      · rw [xferLoop, if_neg h0, hinner]
        dsimp only
        rw [hloop]
      · rw [specBlocks, if_neg h0]
        simp only [matchesBlockTrace, beq_self_eq_true, Bool.true_and]
        rw [dropWhile_append_of_all hwr, dropWhile_cons_of_neg rfl]
        exact hmatch
      · simp only [writtenOf, writtenOf_append]
        rw [hwv, hwv', hbuf1]
        simp only [Nat.sub_zero]
        exact List.take_append_drop _ _
      · simp only [ackCount, ackCount_append]
        rw [ackCount_of_wrotes evs hwr, hack]
        conv_rhs => rw [specBlocks, if_neg h0]
        simp

/-- C6: for every transfer of a file of N positive bytes whose data
socket delivers in arbitrary-sized partial reads of at least one byte,
the loop completes, requesting blocks of at most 2,000,000 bytes each,
writing exactly the N buffered bytes in arrival order, and - per
requested block, after its bytes and before the next request - consuming
exactly one acknowledgment reply from the command socket. -/
theorem C6_transfer_file (N : Nat) (sk : Sock) (hN : 0 < N)
    (hbuf : sk.buf.length = N) (hav : availOk sk.avail = true) :
    ∃ tr sk', xferLoop sk N = some (tr, sk') ∧
      matchesBlockTrace (specBlocks N) tr = true ∧
      writtenOf tr = sk.buf ∧
      (writtenOf tr).length = N ∧
      ackCount tr = (specBlocks N).length ∧
      ∀ b ∈ specBlocks N, b ≤ 2000000 := by
  obtain ⟨tr, sk', h1, h2, h3, h4⟩ := xferLoop_spec N sk hav hbuf
  exact ⟨tr, sk', h1, h2, h3, by rw [h3, hbuf], h4, specBlocks_le N⟩

/-- Witness for C6: a 3-byte file delivered under a schedule that
splits the single block into partial reads. -/
theorem C6_transfer_file_witness :
    ∃ tr sk', xferLoop ⟨"abc".data, [Option.some 2]⟩ 3 = some (tr, sk') ∧
      matchesBlockTrace (specBlocks 3) tr = true ∧
      writtenOf tr = (⟨"abc".data, [Option.some 2]⟩ : Sock).buf ∧
      (writtenOf tr).length = 3 ∧
      ackCount tr = (specBlocks 3).length ∧
      ∀ b ∈ specBlocks 3, b ≤ 2000000 :=
  C6_transfer_file 3 ⟨"abc".data, [Option.some 2]⟩ (by norm_num) (by decide)
    (by decide)

/-- C7: the inner partial-read loop of transferFile does not treat a
zero-length read as remote closure: on a closed data socket (recv
returns the empty string every time) the loop repeats with no progress,
so the modelled loop fails to terminate for every fuel bound.
recv_all in the same file breaks on the empty read; the missing break
in transferFile (conn.py 1071-1082) busy-loops instead, contradicting
the spec's requirement. -/
theorem C7_zero_read_busy_loop (blockSize t : Nat) (h : t < blockSize) :
    ∀ fuel, xferInner fuel ⟨[], []⟩ blockSize t = none := by
  intro fuel
  induction fuel with
  | zero =>
    rw [xferInner, if_pos h]
  | succ f ihf =>
    rw [xferInner, if_pos h]
    rw [show recv ⟨[], []⟩ (blockSize - t) = .ok ([], ⟨[], []⟩) from by
      simp [recv]]
    dsimp only
    rw [show t + List.length ([] : List Char) = t from by simp, ihf]

/-- Witness for C7: a block of 5 bytes, none transferred, on a closed
socket: even 1000 iterations make no progress. -/
theorem C7_zero_read_busy_loop_witness :
    (0 : Nat) < 5 ∧ xferInner 1000 ⟨[], []⟩ 5 0 = none :=
  ⟨by norm_num, C7_zero_read_busy_loop 5 0 (by norm_num) 1000⟩

/-! ### The inject_conn decorator (conn.py lines 71-125)

One thread's view: thread-local storage holds at most one checked-out
Connection; the pool is summarized by its cumulative checkout() and
checkin() call counters.  Other threads have their own thread-local
slot and never appear here. -/

/-- One thread's injection state: the Connection recorded in that
thread's thread-local storage (none when absent or cleared) and the
pool's checkout and checkin counters. -/
structure PoolState where
  conn : Option Nat
  checkouts : Nat
  checkins : Nat
deriving DecidableEq

/-- A wrapped method body as the decorator sees it on one thread: it
can return normally, raise, run two parts in sequence (a raise skips
the rest), or make a nested call to another inject_conn method. -/
inductive Body where
  | ret
  | raiseE
  | seq (a b : Body)
  | call (inner : Body)

/-- Run a body on one thread, tracking whether an exception is
propagating.  The call case is inject_conn itself (conn.py 104-125):
when no Connection is recorded in thread-local storage, checkout() and
record one (alreadyAcquired false); run the wrapped function; in the
finally clause, exactly when this call performed the checkout,
checkin() and clear the record - whether the body returned or raised. -/
def runBody : Body → PoolState → Bool × PoolState
  | .ret, s => (false, s)
  | .raiseE, s => (true, s)
  | .seq a b, s =>
    match runBody a s with
    | (true, s') => (true, s')
    | (false, s') => runBody b s'
  | .call inner, s =>
    let already := s.conn.isSome
    let s1 := if already then s
      else { s with conn := some s.checkouts, checkouts := s.checkouts + 1 }
    let r2 := runBody inner s1
    let s3 := if already then r2.2
      else { r2.2 with checkins := r2.2.checkins + 1, conn := Option.none }
    (r2.1, s3)

/-- While a Connection is recorded in thread-local storage, no body -
nested injected calls included - changes the state at all: nested calls
reuse the recorded Connection with no further checkout or checkin. -/
theorem runBody_nested : ∀ (b : Body) (s : PoolState),
    s.conn.isSome = true → (runBody b s).2 = s := by
  intro b
  induction b with
  | ret => intro s hs; rfl
  | raiseE => intro s hs; rfl
  | seq a b iha ihb =>
    intro s hs
    simp only [runBody]
    cases hr : runBody a s with
    | mk raised s' =>
      have hs' : s' = s := by
        have := iha s hs
        rw [hr] at this
        exact this
      cases raised
      · dsimp only
        rw [hs']
        exact ihb s hs
      · dsimp only
        exact hs'
  | call inner ihi =>
    intro s hs
    simp only [runBody, hs, if_true, if_pos]
    exact ihi s hs

/-- C8: for every (arbitrarily nested) body run under an outermost
inject_conn call on a thread whose thread-local slot is empty, exactly
one pool checkout and exactly one matching checkin occur - nested
injected calls reuse the recorded Connection without touching the
pool - and the checkin and the clearing of the slot happen on every
exit path, whether the wrapped call returns or raises. -/
theorem C8_inject_conn (b : Body) (s : PoolState) (h : s.conn = Option.none) :
    (runBody (.call b) s).2.checkouts = s.checkouts + 1 ∧
    (runBody (.call b) s).2.checkins = s.checkins + 1 ∧
    (runBody (.call b) s).2.conn = Option.none := by
  simp only [runBody, h, Option.isSome_none, Bool.false_eq_true, if_false]
  rw [runBody_nested b _ (by simp)]
  simp

/-- Witness for C8: a body that makes a nested injected call and then
raises, run from an empty slot and zeroed counters: one checkout, one
checkin, slot cleared, though the call raised. -/
theorem C8_inject_conn_witness :
    (runBody (.call (.seq (.call .ret) .raiseE)) ⟨Option.none, 0, 0⟩).2.checkouts =
        0 + 1 ∧
    (runBody (.call (.seq (.call .ret) .raiseE)) ⟨Option.none, 0, 0⟩).2.checkins =
        0 + 1 ∧
    (runBody (.call (.seq (.call .ret) .raiseE)) ⟨Option.none, 0, 0⟩).2.conn =
        Option.none :=
  C8_inject_conn (.seq (.call .ret) .raiseE) ⟨Option.none, 0, 0⟩ rfl

end MythBox
